import Mathlib

/-!
Verification of the Huffman coding pipeline in `huffmania/main.c`.

The C program is shallowly embedded: the fixed-size arrays of the C structs
become functions `Nat → Nat` (a byte buffer is addressed by byte index, a
count/child table by node index), `size_t` values become `Nat`, and the
sentinel `(size_t)-1` becomes the explicit constant `INVALID_TOKEN = 2^64-1`.
Loops whose termination is not structural carry an explicit fuel argument;
all theorems below either supply enough fuel or prove that the fuel chosen
in the wrapper definitions suffices.
-/

namespace Huffmania

set_option maxRecDepth 100000

set_option maxHeartbeats 2000000

/-- Pointwise array update used to model writes into the C arrays. -/
def upd (f : Nat → Nat) (i v : Nat) : Nat → Nat :=
  fun j => if j = i then v else f j

/-- `TOKEN_SIZE` from the C source: number of tokens allowed. -/
def TOKEN_SIZE : Nat := 256

/-- `INVALID_TOKEN` from the C source: `(size_t)-1` on a 64-bit platform. -/
def INVALID_TOKEN : Nat := 18446744073709551615

/-- `FREQ_TREE_MAX_NODES` from the C source. -/
def FREQ_TREE_MAX_NODES : Nat := TOKEN_SIZE * 2 - 1

/-- The `FreqTree` struct: frequency counts plus left/right child links. -/
structure FreqTree where
  m_count : Nat → Nat
  m_left : Nat → Nat
  m_right : Nat → Nat
  m_top : Nat

/-- `freq_tree_init`: zero counts, all children `INVALID_TOKEN`. -/
def freq_tree_init : FreqTree :=
  { m_count := fun _ => 0
    m_left := fun _ => INVALID_TOKEN
    m_right := fun _ => INVALID_TOKEN
    m_top := FREQ_TREE_MAX_NODES }

/-- `freq_tree_accumulate`: bump the count of each token in the data. -/
def freq_tree_accumulate (t : FreqTree) (data : List Nat) : FreqTree :=
  data.foldl (fun t b => { t with m_count := upd t.m_count b (t.m_count b + 1) }) t

/-- The `EncodedTable` struct: packed code bits plus per-token offset/length. -/
structure EncodedTable where
  m_packedData : Nat → Nat
  m_offset : Nat → Nat
  m_bitcount : Nat → Nat
  m_currentOffset : Nat

/-- `encoded_table_init`: zero offsets, bit counts and the cursor.
The C `memset` calls do not touch `m_packedData`. -/
def encoded_table_init (p : EncodedTable) : EncodedTable :=
  { p with m_offset := fun _ => 0, m_bitcount := fun _ => 0, m_currentOffset := 0 }

/-- `set_encoded_bit`: OR a bit into the packed table, MSB-first per byte. -/
def set_encoded_bit (p : EncodedTable) (bit_offset : Nat) (value : Nat) : EncodedTable :=
  { p with m_packedData :=
              upd p.m_packedData (bit_offset / 8)
                (p.m_packedData (bit_offset / 8) ||| (value <<< (7 - bit_offset % 8))) }

/-- `read_encoded_bit`: read one bit from the packed table. -/
def read_encoded_bit (p : EncodedTable) (bit_offset : Nat) : Nat :=
  (p.m_packedData (bit_offset / 8) >>> (7 - bit_offset % 8)) &&& 1

/-- `get_smallest_huffman`: linear scan for the smallest nonzero count.
The accumulator holds `(small_val, small_ind)`, both starting at the sentinel. -/
def get_smallest_huffman (t : FreqTree) (scan_size : Nat) : Nat :=
  ((List.range scan_size).foldl
    (fun acc i =>
      let val := t.m_count i
      if val ≠ 0 ∧ val < acc.1 then (val, i) else acc)
    (INVALID_TOKEN, INVALID_TOKEN)).2

/-- The `while (1)` loop body of `generate_huffman`, with explicit fuel. -/
def generate_loop : Nat → FreqTree → Nat → FreqTree × Nat
  | 0, t, new_index => (t, new_index)
  | fuel + 1, t, new_index =>
    let ind1 := get_smallest_huffman t new_index
    if ind1 = INVALID_TOKEN then (t, new_index)
    else
      let val1 := t.m_count ind1
      let t1 := { t with m_count := upd t.m_count ind1 0 }
      let ind2 := get_smallest_huffman t1 new_index
      if ind2 = INVALID_TOKEN then (t1, new_index)
      else
        let val2 := t1.m_count ind2
        let t2 := { t1 with m_count := upd t1.m_count ind2 0 }
        let t3 := { t2 with
          m_count := upd t2.m_count new_index (val1 + val2)
          m_left := upd t2.m_left new_index ind1
          m_right := upd t2.m_right new_index ind2 }
        generate_loop fuel t3 (new_index + 1)

/-- `generate_huffman`: run the merge loop, then set `m_top := new_index - 1`.
`TOKEN_SIZE + 1` iterations always suffice (at most one per initially
active token, plus the final empty scan); this is proved below. -/
def generate_huffman (t : FreqTree) : FreqTree :=
  let r := generate_loop (TOKEN_SIZE + 1) t TOKEN_SIZE
  { r.1 with m_top := r.2 - 1 }

/-- One full merge iteration of the loop body (both scans succeeded):
zero the two selected counts and create the combined node at `new_index`. -/
def mergeStep (t : FreqTree) (new_index : Nat) : FreqTree :=
  let ind1 := get_smallest_huffman t new_index
  let t1 := { t with m_count := upd t.m_count ind1 0 }
  let ind2 := get_smallest_huffman t1 new_index
  { t1 with
    m_count := upd (upd t1.m_count ind2 0) new_index (t.m_count ind1 + t1.m_count ind2)
    m_left := upd t1.m_left new_index ind1
    m_right := upd t1.m_right new_index ind2 }

/-- The `while (pChain)` loop inside `freq_tree_traverse`: write the chain
of path bits backward from `write_offset - 1` down. The list models the
`BitChain` linked list, head first (deepest decision first). -/
def writeChain : EncodedTable → Nat → List Nat → EncodedTable
  | pEnc, _, [] => pEnc
  | pEnc, write_offset, v :: rest =>
    writeChain (set_encoded_bit pEnc (write_offset - 1) v) (write_offset - 1) rest

/-- `freq_tree_traverse`: depth-first walk of the tree. At a leaf it either
records the bit count (`onlyCount = true`) or assigns the offset, advances
the cursor and writes the path bits backward (`onlyCount = false`).
Recursion is on explicit fuel; children of built nodes have strictly
smaller indices, so `index + 1` fuel suffices. -/
def freq_tree_traverse :
    Nat → EncodedTable → FreqTree → Nat → List Nat → Nat → Bool → EncodedTable × Nat
  | 0, pEnc, _, _, _, _, _ => (pEnc, 0)
  | fuel + 1, pEnc, t, top, pChain, bitcount, onlyCount =>
    if t.m_left top = INVALID_TOKEN then
      if onlyCount then
        ({ pEnc with m_bitcount := upd pEnc.m_bitcount top bitcount }, bitcount)
      else
        let pEnc1 := { pEnc with
          m_offset := upd pEnc.m_offset top pEnc.m_currentOffset
          m_currentOffset := pEnc.m_currentOffset + bitcount }
        (writeChain pEnc1 pEnc1.m_currentOffset pChain, bitcount)
    else
      let r1 := freq_tree_traverse fuel pEnc t (t.m_left top) (0 :: pChain) (bitcount + 1) onlyCount
      let r2 := freq_tree_traverse fuel r1.1 t (t.m_right top) (1 :: pChain) (bitcount + 1) onlyCount
      (r2.1, r1.2 + r2.2)

/-- `create_encodings`: init the table, then traverse twice.  The first call
passes `onlyCount = 0` (it writes offsets and bits), the second passes
`onlyCount = 1` (it records bit counts); the returned total comes from the
first call. -/
def create_encodings (pEnc : EncodedTable) (t : FreqTree) : EncodedTable × Nat :=
  let pEnc0 := encoded_table_init pEnc
  let fuel := t.m_top + 1
  let r1 := freq_tree_traverse fuel pEnc0 t t.m_top [] 0 false
  let r2 := freq_tree_traverse fuel r1.1 t t.m_top [] 0 true
  (r2.1, r1.2)

/-- The `Stream` struct: a bit-addressable buffer with a cursor.  The byte
buffer is modelled as a function from byte index to byte value. -/
structure Stream where
  m_buffer : Nat → Nat
  m_offset : Nat

/-- `stream_reset`. -/
def stream_reset (s : Stream) : Stream := { s with m_offset := 0 }

/-- `stream_write_bit`: OR one bit in at the cursor, advance the cursor. -/
def stream_write_bit (s : Stream) (value : Nat) : Stream :=
  { m_buffer :=
      upd s.m_buffer (s.m_offset / 8)
        (s.m_buffer (s.m_offset / 8) ||| (value <<< (7 - s.m_offset % 8))),
    m_offset := s.m_offset + 1 }

/-- `stream_read_bit`: read the bit at the cursor, advance the cursor. -/
def stream_read_bit (s : Stream) : Stream × Nat :=
  ({ s with m_offset := s.m_offset + 1 },
   (s.m_buffer (s.m_offset / 8) >>> (7 - s.m_offset % 8)) &&& 1)

/-- The inner `while (startBit != endBit)` loop of `stream_encode` for one
input byte: copy that token's table bits into the stream in order. -/
def encode_token (pEnc : EncodedTable) (s : Stream) (org : Nat) : Stream :=
  (List.range' (pEnc.m_offset org) (pEnc.m_bitcount org)).foldl
    (fun s b => stream_write_bit s (read_encoded_bit pEnc b)) s

/-- `stream_encode`: encode each input byte in turn. -/
def stream_encode (s : Stream) (data : List Nat) (pEnc : EncodedTable) : Stream :=
  data.foldl (encode_token pEnc) s

/-- The inner `do ... while` of `stream_decode`: read bits and walk the tree
(right on a set bit, left otherwise) until reaching a node whose left child
is `INVALID_TOKEN`.  One fuel unit per bit read; the C loop always reads at
least one bit. -/
def decode_walk (t : FreqTree) : Nat → Stream → Nat → Option (Stream × Nat)
  | 0, _, _ => none
  | fuel + 1, s, current =>
    let r := stream_read_bit s
    let next := if r.2 ≠ 0 then t.m_right current else t.m_left current
    if t.m_left next ≠ INVALID_TOKEN then decode_walk t fuel r.1 next
    else some (r.1, next)

/-- `stream_decode`: repeatedly walk from `m_top`, emit the leaf index, and
stop exactly after emitting the token value `0`.  Returns the emitted
token sequence; `none` when the fuel runs out. -/
def stream_decode (t : FreqTree) (walkFuel : Nat) : Nat → Stream → Option (Stream × List Nat)
  | 0, _ => none
  | fuel + 1, s =>
    match decode_walk t walkFuel s t.m_top with
    | none => none
    | some (s', current) =>
      if current = 0 then some (s', [current])
      else
        match stream_decode t walkFuel fuel s' with
        | none => none
        | some (s'', rest) => some (s'', current :: rest)

/-- A fresh all-zero encoded table, modelling zero-initialised memory. -/
def zeroTable : EncodedTable :=
  { m_packedData := fun _ => 0, m_offset := fun _ => 0, m_bitcount := fun _ => 0
    m_currentOffset := 0 }

/-- A fresh all-zero stream, modelling zero-initialised memory. -/
def zeroStream : Stream := { m_buffer := fun _ => 0, m_offset := 0 }

/-- The whole pipeline of `main` on a given data buffer: accumulate
frequencies, build the tree, derive the code table, encode, reset the
stream, decode.  Returns the decoded token sequence. -/
def pipeline (data : List Nat) (walkFuel tokenFuel : Nat) : Option (List Nat) :=
  let t0 := freq_tree_accumulate freq_tree_init data
  let t := generate_huffman t0
  let enc := (create_encodings zeroTable t).1
  let s := stream_encode zeroStream data enc
  let s1 := stream_reset s
  (stream_decode t walkFuel tokenFuel s1).map (fun r => r.2)

/-- Root-to-leaf paths of the subtree at `n`, in the traversal's depth-first
order, each tagged with the leaf's node index.  `path` is the accumulated
root-to-here bit list (0 = left, 1 = right). -/
def leafPaths (t : FreqTree) : Nat → Nat → List Nat → List (Nat × List Nat)
  | 0, _, _ => []
  | fuel + 1, n, path =>
    if t.m_left n = INVALID_TOKEN then [(n, path)]
    else
      leafPaths t fuel (t.m_left n) (path ++ [0]) ++
        leafPaths t fuel (t.m_right n) (path ++ [1])

/-- Leaf indices of the subtree at `n`, canonical fuel. -/
def leavesOf (t : FreqTree) (n : Nat) : List Nat :=
  (leafPaths t (n + 1) n []).map Prod.fst

/-- Expected `(token, offset, path)` layout of the packed table: codes are
laid out consecutively starting at `c` in depth-first leaf order. -/
def codeSpec : Nat → List (Nat × List Nat) → List (Nat × Nat × List Nat)
  | _, [] => []
  | c, (tok, p) :: rest => (tok, c, p) :: codeSpec (c + p.length) rest

/-- Total bit count of a list of leaf paths. -/
def pathsTotal (L : List (Nat × List Nat)) : Nat :=
  (L.map (fun pr => pr.2.length)).sum

/-- The code of a token as read back from the derived table, start to end. -/
def codeBits (p : EncodedTable) (tok : Nat) : List Nat :=
  (List.range (p.m_bitcount tok)).map (fun j => read_encoded_bit p (p.m_offset tok + j))

/-- Sum of all per-token code lengths recorded in the table. -/
def sumBitcounts (p : EncodedTable) : Nat :=
  ∑ i ∈ Finset.range TOKEN_SIZE, p.m_bitcount i

/-- Sum of code length times frequency over all tokens. -/
def weightedBits (t0 : FreqTree) (p : EncodedTable) : Nat :=
  ∑ i ∈ Finset.range TOKEN_SIZE, p.m_bitcount i * t0.m_count i

/-- Sum of the frequency-table entries below `n`. -/
def sumCount (t : FreqTree) (n : Nat) : Nat :=
  ∑ j ∈ Finset.range n, t.m_count j

/-- Number of active (nonzero-count) nodes below `n`. -/
def activeCount (t : FreqTree) (n : Nat) : Nat :=
  ∑ j ∈ Finset.range n, (if t.m_count j = 0 then 0 else 1)

/-- Children of every internal node are valid and strictly smaller. -/
def ChildrenDec (t : FreqTree) : Prop :=
  ∀ j, t.m_left j ≠ INVALID_TOKEN →
    t.m_right j ≠ INVALID_TOKEN ∧ t.m_left j < j ∧ t.m_right j < j

/-- Invariant of the `generate_huffman` merge loop when the next free node
index is `ni`, relative to a bound `S` on the total frequency mass:
the node range and child links are consistent, consumed nodes sit below
`ni`, and the leaf sets below distinct active roots are disjoint and
duplicate-free. -/
structure BuildInv (S : Nat) (t : FreqTree) (ni : Nat) : Prop where
  ni_ge : TOKEN_SIZE ≤ ni
  ni_act : ni + activeCount t ni ≤ 2 * TOKEN_SIZE
  left_iff : ∀ j, t.m_left j ≠ INVALID_TOKEN ↔ (TOKEN_SIZE ≤ j ∧ j < ni)
  right_iff : ∀ j, t.m_right j ≠ INVALID_TOKEN ↔ (TOKEN_SIZE ≤ j ∧ j < ni)
  child_lt : ∀ j, TOKEN_SIZE ≤ j → j < ni → t.m_left j < j ∧ t.m_right j < j
  hi_zero : ∀ j, ni ≤ j → t.m_count j = 0
  sum_le : sumCount t ni ≤ S
  nodup_all : ∀ a, a < ni → (leavesOf t a).Nodup
  disj : ∀ a b, a < ni → b < ni → t.m_count a ≠ 0 → t.m_count b ≠ 0 → a ≠ b →
    ∀ x, x ∈ leavesOf t a → x ∉ leavesOf t b

/-- The bit value extracted by the C shift/mask idiom. -/
def natBit (x u : Nat) : Nat := (x >>> u) &&& 1

/-- Bit `a` of the packed code table. -/
def getPackedBit (p : EncodedTable) (a : Nat) : Nat :=
  natBit (p.m_packedData (a / 8)) (7 - a % 8)

/-- Bit `a` of the stream buffer. -/
def streamBit (s : Stream) (a : Nat) : Nat :=
  natBit (s.m_buffer (a / 8)) (7 - a % 8)

/-- Invariant of the linear scan after processing indices `< n`: either
nothing eligible was seen, or the accumulator holds the value and index of
the smallest nonzero count seen so far, with ties resolved to the lowest
index. -/
def GshInv (t : FreqTree) (n : Nat) (acc : Nat × Nat) : Prop :=
  (acc = (INVALID_TOKEN, INVALID_TOKEN) ∧
    ∀ i, i < n → ¬(t.m_count i ≠ 0 ∧ t.m_count i < INVALID_TOKEN)) ∨
  (acc.2 < n ∧ acc.1 = t.m_count acc.2 ∧ acc.1 ≠ 0 ∧ acc.1 < INVALID_TOKEN ∧
    (∀ i, i < n → t.m_count i ≠ 0 → t.m_count i < INVALID_TOKEN → acc.1 ≤ t.m_count i) ∧
    (∀ i, i < n → t.m_count i = acc.1 → acc.2 ≤ i))

/-- Postcondition of the writing pass (`onlyCount = 0`) of
`freq_tree_traverse` started at cursor `pEnc.m_currentOffset` over the
leaves `L` (in traversal order): the return value is the total code size,
the cursor advances by it, bit counts are untouched, offsets of other
tokens are untouched, bits outside the written window are untouched (and
clear above it), and every leaf gets its offset and its path bits laid out
start-to-end. -/
def TravWriteOut (pEnc : EncodedTable) (L : List (Nat × List Nat))
    (r : EncodedTable × Nat) : Prop :=
  r.2 = pathsTotal L ∧
  r.1.m_currentOffset = pEnc.m_currentOffset + pathsTotal L ∧
  r.1.m_bitcount = pEnc.m_bitcount ∧
  (∀ tok, tok ∉ L.map Prod.fst → r.1.m_offset tok = pEnc.m_offset tok) ∧
  (∀ a, a < pEnc.m_currentOffset → getPackedBit r.1 a = getPackedBit pEnc a) ∧
  (∀ a, pEnc.m_currentOffset + pathsTotal L ≤ a → getPackedBit r.1 a = 0) ∧
  (∀ tok o pa, (tok, o, pa) ∈ codeSpec pEnc.m_currentOffset L →
    r.1.m_offset tok = o ∧ ∀ j, j < pa.length → getPackedBit r.1 (o + j) = pa.getD j 0)

/-- Write a whole list of bits into a stream with `stream_write_bit`. -/
def writeBits (s : Stream) (bits : List Nat) : Stream :=
  bits.foldl stream_write_bit s

/-- Perform `n` consecutive `stream_read_bit` calls, collecting the bits. -/
def readBits : Nat → Stream → Stream × List Nat
  | 0, s => (s, [])
  | n + 1, s =>
    let r := stream_read_bit s
    let rr := readBits n r.1
    (rr.1, r.2 :: rr.2)

/-- A stream whose first buffer byte has its top bit already set. -/
def dirtyStream : Stream :=
  { m_buffer := fun i => if i = 0 then 128 else 0, m_offset := 0 }

/-- Frequency table of the textbook scenario in the spec:
counts 5, 9, 12, 13, 16, 45 for the byte values of a, b, c, d, e, f. -/
def textbookTree : FreqTree :=
  { freq_tree_init with m_count := fun i =>
      if i = 97 then 5 else if i = 98 then 9 else if i = 99 then 12
      else if i = 100 then 13 else if i = 101 then 16
      else if i = 102 then 45 else 0 }

/-- Frequency table with a single used token, index 5. -/
def singleTokenTree : FreqTree :=
  { freq_tree_init with m_count := fun i => if i = 5 then 7 else 0 }

/-- Frequency table for the tie-break scenario: tokens 0 and 1 tie at
count 2, token 2 has count 3. -/
def tieTree : FreqTree :=
  { freq_tree_init with m_count := fun i =>
      if i = 0 then 2 else if i = 1 then 2 else if i = 2 then 3 else 0 }

/-- Frequency table over the data `[0, 1, 1]`: token 0 once, token 1 twice. -/
def smallTree : FreqTree := freq_tree_accumulate freq_tree_init [0, 1, 1]

/-! ## Theorems -/

theorem upd_same (f : Nat → Nat) (i v : Nat) : upd f i v i = v := by
  simp [upd]

theorem upd_other (f : Nat → Nat) (i v j : Nat) (h : j ≠ i) : upd f i v j = f j := by
  simp [upd, h]

/-! ### Bit-level lemmas for the packed byte buffers -/

theorem natBit_eq (x u : Nat) : natBit x u = (x.testBit u).toNat := by
  rw [natBit, Nat.and_one_is_mod, Nat.shiftRight_eq_div_pow, Nat.testBit_to_div_mod]
  rcases Nat.mod_two_eq_zero_or_one (x / 2 ^ u) with h | h <;> simp [h]

theorem natBit_le_one (x u : Nat) : natBit x u ≤ 1 := by
  rw [natBit_eq]; cases x.testBit u <;> simp

theorem toNat_or (a b : Bool) : (a || b).toNat = a.toNat ||| b.toNat := by
  cases a <;> cases b <;> rfl

theorem natBit_lor (x y u : Nat) : natBit (x ||| y) u = natBit x u ||| natBit y u := by
  rw [natBit_eq, natBit_eq, natBit_eq, Nat.testBit_lor, toNat_or]

theorem testBit_of_le_one (v : Nat) (hv : v ≤ 1) (k : Nat) :
    v.testBit k = (decide (v = 1) && decide (k = 0)) := by
  have hv01 : v = 0 ∨ v = 1 := by omega
  rcases hv01 with h | h <;> subst h
  · simp [Nat.zero_testBit]
  · cases k with
    | zero => simp [Nat.testBit_to_div_mod]
    | succ k =>
      have h1 : 2 ^ k ≥ 1 := Nat.one_le_two_pow
      have h2 : 1 / 2 ^ (k + 1) = 0 := Nat.div_eq_of_lt (by
        have := Nat.pow_le_pow_right (by omega : 1 ≤ 2) (by omega : 1 ≤ k + 1)
        omega)
      simp [Nat.testBit_to_div_mod, h2]

theorem natBit_shl_self (v t : Nat) (hv : v ≤ 1) : natBit (v <<< t) t = v := by
  rw [natBit_eq, Nat.testBit_shiftLeft, testBit_of_le_one v hv]
  have : v = 0 ∨ v = 1 := by omega
  rcases this with h | h <;> subst h <;> simp

theorem natBit_shl_other (v t u : Nat) (hv : v ≤ 1) (h : u ≠ t) : natBit (v <<< t) u = 0 := by
  rw [natBit_eq, Nat.testBit_shiftLeft, testBit_of_le_one v hv]
  rcases Nat.lt_or_ge u t with hlt | hge
  · simp [Nat.not_le_of_lt hlt]
  · have : u - t ≠ 0 := by omega
    simp [this]

theorem natBit_or_shl_self (x v t : Nat) (hv : v ≤ 1) :
    natBit (x ||| (v <<< t)) t = natBit x t ||| v := by
  rw [natBit_lor, natBit_shl_self v t hv]

theorem natBit_or_shl_other (x v t u : Nat) (hv : v ≤ 1) (h : u ≠ t) :
    natBit (x ||| (v <<< t)) u = natBit x u := by
  rw [natBit_lor, natBit_shl_other v t u hv h, Nat.or_zero]

theorem read_encoded_bit_eq (p : EncodedTable) (a : Nat) :
    read_encoded_bit p a = getPackedBit p a := rfl

theorem bit_addr_split (a b : Nat) (h : b ≠ a) :
    b / 8 ≠ a / 8 ∨ (b / 8 = a / 8 ∧ 7 - b % 8 ≠ 7 - a % 8) := by
  by_cases hq : b / 8 = a / 8
  · right
    refine ⟨hq, ?_⟩
    omega
  · left; exact hq

theorem getPackedBit_set_self (p : EncodedTable) (a v : Nat) (hv : v ≤ 1) :
    getPackedBit (set_encoded_bit p a v) a = getPackedBit p a ||| v := by
  unfold getPackedBit set_encoded_bit
  simp only [upd_same]
  exact natBit_or_shl_self _ v _ hv

theorem getPackedBit_set_other (p : EncodedTable) (a v b : Nat) (hv : v ≤ 1) (h : b ≠ a) :
    getPackedBit (set_encoded_bit p a v) b = getPackedBit p b := by
  unfold getPackedBit set_encoded_bit
  rcases bit_addr_split a b h with hq | ⟨hq, hs⟩
  · simp only [upd]
    rw [if_neg hq]
  · simp only [upd, hq, if_pos rfl]
    exact natBit_or_shl_other _ v _ _ hv hs

theorem set_encoded_bit_offset (p : EncodedTable) (a v : Nat) :
    (set_encoded_bit p a v).m_offset = p.m_offset := rfl

theorem set_encoded_bit_bitcount (p : EncodedTable) (a v : Nat) :
    (set_encoded_bit p a v).m_bitcount = p.m_bitcount := rfl

theorem set_encoded_bit_cursor (p : EncodedTable) (a v : Nat) :
    (set_encoded_bit p a v).m_currentOffset = p.m_currentOffset := rfl

theorem streamBit_write_self (s : Stream) (v : Nat) (hv : v ≤ 1) :
    streamBit (stream_write_bit s v) s.m_offset = streamBit s s.m_offset ||| v := by
  unfold streamBit stream_write_bit
  simp only [upd_same]
  exact natBit_or_shl_self _ v _ hv

theorem streamBit_write_other (s : Stream) (v b : Nat) (hv : v ≤ 1) (h : b ≠ s.m_offset) :
    streamBit (stream_write_bit s v) b = streamBit s b := by
  unfold streamBit stream_write_bit
  rcases bit_addr_split s.m_offset b h with hq | ⟨hq, hs⟩
  · simp only [upd]
    rw [if_neg hq]
  · simp only [upd, hq, if_pos rfl]
    exact natBit_or_shl_other _ v _ _ hv hs

theorem stream_write_bit_offset (s : Stream) (v : Nat) :
    (stream_write_bit s v).m_offset = s.m_offset + 1 := rfl

theorem stream_read_bit_val (s : Stream) : (stream_read_bit s).2 = streamBit s s.m_offset := rfl

theorem stream_read_bit_state (s : Stream) :
    (stream_read_bit s).1 = { s with m_offset := s.m_offset + 1 } := rfl

/-! ### The minimum scan: `get_smallest_huffman` -/

theorem gsh_inv (t : FreqTree) (n : Nat) :
    GshInv t n ((List.range n).foldl
      (fun acc i =>
        let val := t.m_count i
        if val ≠ 0 ∧ val < acc.1 then (val, i) else acc)
      (INVALID_TOKEN, INVALID_TOKEN)) := by
  induction n with
  | zero =>
    left
    exact ⟨rfl, fun i hi => absurd hi (Nat.not_lt_zero i)⟩
  | succ n ih =>
    rw [List.range_succ, List.foldl_append, List.foldl_cons, List.foldl_nil]
    set acc := (List.range n).foldl
      (fun acc i =>
        let val := t.m_count i
        if val ≠ 0 ∧ val < acc.1 then (val, i) else acc)
      (INVALID_TOKEN, INVALID_TOKEN) with hacc
    rcases ih with ⟨heq, hnone⟩ | ⟨hlt, hval, hne, hinv, hmin, htie⟩
    · rw [heq]
      simp only
      by_cases hc : t.m_count n ≠ 0 ∧ t.m_count n < (INVALID_TOKEN, INVALID_TOKEN).1
      · rw [if_pos hc]
        right
        refine ⟨Nat.lt_succ_self n, rfl, hc.1, hc.2, ?_, ?_⟩
        · intro i hi h0 hv
          rcases Nat.lt_succ_iff_lt_or_eq.mp hi with h | h
          · exact absurd ⟨h0, hv⟩ (hnone i h)
          · subst h; exact Nat.le_refl _
        · intro i hi hval
          rcases Nat.lt_succ_iff_lt_or_eq.mp hi with h | h
          · exfalso
            exact hnone i h ⟨by simpa [hval] using hc.1, by simpa [hval] using hc.2⟩
          · omega
      · rw [if_neg hc]
        left
        refine ⟨rfl, fun i hi => ?_⟩
        rcases Nat.lt_succ_iff_lt_or_eq.mp hi with h | h
        · exact hnone i h
        · subst h; exact hc
    · simp only
      by_cases hc : t.m_count n ≠ 0 ∧ t.m_count n < acc.1
      · rw [if_pos hc]
        right
        refine ⟨Nat.lt_succ_self n, rfl, hc.1, Nat.lt_trans hc.2 hinv, ?_, ?_⟩
        · intro i hi h0 hv
          rcases Nat.lt_succ_iff_lt_or_eq.mp hi with h | h
          · exact Nat.le_trans (Nat.le_of_lt hc.2) (hmin i h h0 hv)
          · subst h; exact Nat.le_refl _
        · intro i hi hvi
          rcases Nat.lt_succ_iff_lt_or_eq.mp hi with h | h
          · exfalso
            have h0 : t.m_count i ≠ 0 := by rw [hvi]; exact hc.1
            have hv : t.m_count i < INVALID_TOKEN := by
              rw [hvi]; exact Nat.lt_trans hc.2 hinv
            have := hmin i h h0 hv
            omega
          · omega
      · rw [if_neg hc]
        right
        refine ⟨Nat.lt_trans hlt (Nat.lt_succ_self n), hval, hne, hinv, ?_, ?_⟩
        · intro i hi h0 hv
          rcases Nat.lt_succ_iff_lt_or_eq.mp hi with h | h
          · exact hmin i h h0 hv
          · subst h
            rcases not_and_or.mp hc with h | h
            · exact absurd h0 (by simpa using h)
            · omega
        · intro i hi hvi
          rcases Nat.lt_succ_iff_lt_or_eq.mp hi with h | h
          · exact htie i h hvi
          · subst h; omega

theorem gsh_spec (t : FreqTree) (n : Nat) : GshInv t n (INVALID_TOKEN, get_smallest_huffman t n) ∨
    GshInv t n (t.m_count (get_smallest_huffman t n), get_smallest_huffman t n) := by
  have h := gsh_inv t n
  rcases h with ⟨heq, hnone⟩ | h
  · left
    rw [get_smallest_huffman, heq]
    exact Or.inl ⟨heq ▸ rfl, hnone⟩
  · right
    rw [get_smallest_huffman]
    right
    rcases h with ⟨hlt, hval, rest⟩
    exact ⟨hlt, by rw [← hval], hval ▸ rest⟩

/-- The scan finds a minimal nonzero count, and ties go to the lowest index. -/
theorem gsh_min (t : FreqTree) (n i : Nat)
    (hi : i < n) (h0 : t.m_count i ≠ 0) (hv : t.m_count i < INVALID_TOKEN) :
    get_smallest_huffman t n < n ∧
    t.m_count (get_smallest_huffman t n) ≠ 0 ∧
    t.m_count (get_smallest_huffman t n) < INVALID_TOKEN ∧
    (∀ j, j < n → t.m_count j ≠ 0 → t.m_count j < INVALID_TOKEN →
      t.m_count (get_smallest_huffman t n) ≤ t.m_count j) ∧
    (∀ j, j < n → t.m_count j = t.m_count (get_smallest_huffman t n) →
      get_smallest_huffman t n ≤ j) := by
  have h := gsh_inv t n
  rcases h with ⟨heq, hnone⟩ | ⟨hlt, hval, hne, hinv, hmin, htie⟩
  · exact absurd ⟨h0, hv⟩ (hnone i hi)
  · rw [get_smallest_huffman]
    refine ⟨hlt, by rw [← hval]; exact hne, by rw [← hval]; exact hinv,
      fun j hj hj0 hjv => by rw [← hval]; exact hmin j hj hj0 hjv,
      fun j hj hjv => htie j hj (by rw [hjv, ← hval])⟩

/-- The scan returns the sentinel exactly when nothing is eligible. -/
theorem gsh_none (t : FreqTree) (n : Nat)
    (h : ∀ i, i < n → t.m_count i = 0 ∨ ¬(t.m_count i < INVALID_TOKEN)) :
    get_smallest_huffman t n = INVALID_TOKEN := by
  have hh := gsh_inv t n
  rcases hh with ⟨heq, _⟩ | ⟨hlt, hval, hne, hinv, _, _⟩
  · rw [get_smallest_huffman, heq]
  · exfalso
    set acc := (List.range n).foldl
      (fun acc i =>
        let val := t.m_count i
        if val ≠ 0 ∧ val < acc.1 then (val, i) else acc)
      (INVALID_TOKEN, INVALID_TOKEN)
    rcases h acc.2 hlt with h0 | hv
    · exact hne (hval.trans h0)
    · exact hv (hval ▸ hinv)

/-- Conversely, a sentinel result means nothing was eligible. -/
theorem gsh_none_inv (t : FreqTree) (n : Nat) (hn : n ≤ INVALID_TOKEN)
    (h : get_smallest_huffman t n = INVALID_TOKEN) :
    ∀ i, i < n → t.m_count i = 0 ∨ ¬(t.m_count i < INVALID_TOKEN) := by
  intro i hi
  by_contra hc
  push_neg at hc
  have := gsh_min t n i hi hc.1 hc.2
  omega

/-! ### Decode loop shape -/

/-- Whenever `stream_decode` returns, the emitted sequence starts with the
token found by the first tree walk from `m_top`, ends with the token `0`,
and contains no `0` anywhere before its last position. -/
theorem stream_decode_spec (t : FreqTree) (wf : Nat) :
    ∀ (fuel : Nat) (s s' : Stream) (out : List Nat),
      stream_decode t wf fuel s = some (s', out) →
      (∃ s1 c, decode_walk t wf s t.m_top = some (s1, c) ∧ out.head? = some c) ∧
      out.getLast? = some 0 ∧ ∀ x ∈ out.dropLast, x ≠ 0 := by
  intro fuel
  induction fuel with
  | zero =>
    intro s s' out h
    simp [stream_decode] at h
  | succ fuel ih =>
    intro s s' out h
    rw [stream_decode] at h
    cases hw : decode_walk t wf s t.m_top with
    | none => rw [hw] at h; exact absurd h (by simp)
    | some pr =>
      obtain ⟨s1, cur⟩ := pr
      rw [hw] at h
      simp only at h
      by_cases hz : cur = 0
      · rw [if_pos hz] at h
        simp only [Option.some.injEq, Prod.mk.injEq] at h
        obtain ⟨hs, hout⟩ := h
        subst hout
        subst hz
        exact ⟨⟨s1, 0, rfl, rfl⟩, rfl, by simp⟩
      · rw [if_neg hz] at h
        cases hr : stream_decode t wf fuel s1 with
        | none => rw [hr] at h; exact absurd h (by simp)
        | some pr2 =>
          obtain ⟨s2, rest⟩ := pr2
          rw [hr] at h
          simp only at h
          simp only [Option.some.injEq, Prod.mk.injEq] at h
          obtain ⟨hs, hout⟩ := h
          subst hout
          obtain ⟨_, hlast, hmid⟩ := ih s1 s2 rest hr
          have hrest : rest ≠ [] := by
            intro he; rw [he] at hlast; simp at hlast
          refine ⟨⟨s1, cur, rfl, rfl⟩, ?_, ?_⟩
          · cases rest with
            | nil => exact absurd rfl hrest
            | cons r rs => rw [List.getLast?_cons_cons]; exact hlast
          · intro x hx
            cases rest with
            | nil => exact absurd rfl hrest
            | cons r rs =>
              rw [List.dropLast_cons₂] at hx
              rcases List.mem_cons.mp hx with hx | hx
              · subst hx; exact hz
              · exact hmid x hx

/-! ### Stream write/read round trip -/

theorem streamBit_of_buffer_eq (s s' : Stream) (h : s'.m_buffer = s.m_buffer) (a : Nat) :
    streamBit s' a = streamBit s a := by
  unfold streamBit
  rw [h]

/-- Effect of writing a list of bits at the cursor of a stream whose bits at
and after the cursor are all clear. -/
theorem writeBits_spec (bits : List Nat) :
    ∀ (s : Stream), (∀ b ∈ bits, b ≤ 1) → (∀ a, s.m_offset ≤ a → streamBit s a = 0) →
      (writeBits s bits).m_offset = s.m_offset + bits.length ∧
      (∀ a, a < s.m_offset → streamBit (writeBits s bits) a = streamBit s a) ∧
      (∀ i, i < bits.length → streamBit (writeBits s bits) (s.m_offset + i) = bits.getD i 0) ∧
      (∀ a, s.m_offset + bits.length ≤ a → streamBit (writeBits s bits) a = 0) := by
  induction bits with
  | nil =>
    intro s _ hz
    refine ⟨by simp [writeBits], fun a _ => rfl, fun i hi => absurd hi (by simp), ?_⟩
    intro a ha
    exact hz a (by omega)
  | cons b rest ih =>
    intro s hb hz
    have hb1 : b ≤ 1 := hb b (List.mem_cons_self b rest)
    have hw : writeBits s (b :: rest) = writeBits (stream_write_bit s b) rest := rfl
    set s1 := stream_write_bit s b with hs1
    have hoff1 : s1.m_offset = s.m_offset + 1 := rfl
    have hbit_at : streamBit s1 s.m_offset = b := by
      rw [hs1, streamBit_write_self s b hb1, hz s.m_offset (Nat.le_refl _)]
      cases b with
      | zero => rfl
      | succ b' =>
        have : b' = 0 := by omega
        subst this; rfl
    have hbit_other : ∀ a, a ≠ s.m_offset → streamBit s1 a = streamBit s a :=
      fun a ha => streamBit_write_other s b a hb1 ha
    have hz1 : ∀ a, s1.m_offset ≤ a → streamBit s1 a = 0 := by
      intro a ha
      rw [hoff1] at ha
      rw [hbit_other a (by omega)]
      exact hz a (by omega)
    obtain ⟨ih_off, ih_lo, ih_mid, ih_hi⟩ := ih s1 (fun x hx => hb x (List.mem_cons_of_mem b hx)) hz1
    rw [hw]
    refine ⟨?_, ?_, ?_, ?_⟩
    · rw [ih_off, hoff1]
      simp [Nat.add_assoc, Nat.add_comm 1 rest.length]
    · intro a ha
      rw [ih_lo a (by omega), hbit_other a (by omega)]
    · intro i hi
      cases i with
      | zero =>
        rw [Nat.add_zero]
        rw [ih_lo s.m_offset (by omega)]
        simpa using hbit_at
      | succ i' =>
        have : s.m_offset + (i' + 1) = s1.m_offset + i' := by omega
        rw [this, ih_mid i' (by simpa using hi)]
        rfl
    · intro a ha
      exact ih_hi a (by simp at ha ⊢; omega)

/-- `readBits` returns the bits at addresses `m_offset, m_offset+1, ...` and
leaves the buffer untouched. -/
theorem readBits_spec (n : Nat) :
    ∀ s : Stream,
      (readBits n s).1.m_offset = s.m_offset + n ∧
      (readBits n s).1.m_buffer = s.m_buffer ∧
      (readBits n s).2 = (List.range n).map (fun i => streamBit s (s.m_offset + i)) := by
  induction n with
  | zero => intro s; exact ⟨rfl, rfl, rfl⟩
  | succ n ih =>
    intro s
    have hr : readBits (n + 1) s =
        ((readBits n (stream_read_bit s).1).1,
         (stream_read_bit s).2 :: (readBits n (stream_read_bit s).1).2) := rfl
    obtain ⟨ih_off, ih_buf, ih_out⟩ := ih (stream_read_bit s).1
    rw [hr]
    refine ⟨?_, ?_, ?_⟩
    · rw [ih_off, stream_read_bit_state]
      simp [Nat.add_assoc, Nat.add_comm 1 n]
    · rw [ih_buf, stream_read_bit_state]
    · simp only
      rw [ih_out, stream_read_bit_val, List.range_succ_eq_map]
      rw [List.map_cons, Nat.add_zero, List.map_map]
      congr 1
      apply List.map_congr_left
      intro i _
      have hb : streamBit (stream_read_bit s).1 = streamBit s := by
        funext a
        exact streamBit_of_buffer_eq s (stream_read_bit s).1 rfl a
      rw [hb]
      simp only [Function.comp_apply, stream_read_bit_state]
      congr 1
      omega

theorem map_getD_range (l : List Nat) :
    (List.range l.length).map (fun i => l.getD i 0) = l := by
  induction l with
  | nil => rfl
  | cons x xs ih =>
    rw [List.length_cons, List.range_succ_eq_map, List.map_cons, List.map_map]
    have h2 : ((fun i => (x :: xs).getD i 0) ∘ Nat.succ) = (fun i => xs.getD i 0) := by
      funext i
      simp [List.getD]
    rw [h2, ih]
    rfl

/-! ### Structural lemmas about `leafPaths` -/

theorem leafPaths_eq_of_lr (t t' : FreqTree) (hl : t'.m_left = t.m_left)
    (hr : t'.m_right = t.m_right) :
    ∀ (fuel n : Nat) (path : List Nat), leafPaths t' fuel n path = leafPaths t fuel n path := by
  intro fuel
  induction fuel with
  | zero => intro n path; rfl
  | succ fuel ih =>
    intro n path
    rw [leafPaths, leafPaths, hl, hr]
    by_cases h : t.m_left n = INVALID_TOKEN
    · rw [if_pos h, if_pos h]
    · rw [if_neg h, if_neg h, ih, ih]

theorem leafPaths_fuel (t : FreqTree) (hc : ChildrenDec t) :
    ∀ (f1 f2 n : Nat) (path : List Nat), n < f1 → n < f2 →
      leafPaths t f1 n path = leafPaths t f2 n path := by
  intro f1
  induction f1 with
  | zero => intro f2 n path h1 _; omega
  | succ f1 ih =>
    intro f2 n path h1 h2
    cases f2 with
    | zero => omega
    | succ f2 =>
      rw [leafPaths, leafPaths]
      by_cases h : t.m_left n = INVALID_TOKEN
      · rw [if_pos h, if_pos h]
      · rw [if_neg h, if_neg h]
        obtain ⟨hrv, hll, hrl⟩ := hc n h
        rw [ih f2 (t.m_left n) _ (by omega) (by omega),
            ih f2 (t.m_right n) _ (by omega) (by omega)]

theorem leafPaths_congr_le (t t' : FreqTree) (hc : ChildrenDec t') :
    ∀ (fuel n : Nat) (path : List Nat),
      (∀ j, j ≤ n → t'.m_left j = t.m_left j ∧ t'.m_right j = t.m_right j) →
      leafPaths t' fuel n path = leafPaths t fuel n path := by
  intro fuel
  induction fuel with
  | zero => intro n path _; rfl
  | succ fuel ih =>
    intro n path hag
    obtain ⟨hl, hr⟩ := hag n (Nat.le_refl n)
    rw [leafPaths, leafPaths, ← hl, ← hr]
    by_cases h : t'.m_left n = INVALID_TOKEN
    · rw [if_pos h, if_pos h]
    · rw [if_neg h, if_neg h]
      obtain ⟨hrv, hll, hrl⟩ := hc n h
      rw [ih (t'.m_left n) _ (fun j hj => hag j (by omega)),
          ih (t'.m_right n) _ (fun j hj => hag j (by omega))]

theorem leafPaths_shift (t : FreqTree) :
    ∀ (fuel n : Nat) (path : List Nat),
      leafPaths t fuel n path =
        (leafPaths t fuel n []).map (fun pr => (pr.1, path ++ pr.2)) := by
  intro fuel
  induction fuel with
  | zero => intro n path; rfl
  | succ fuel ih =>
    intro n path
    rw [leafPaths, leafPaths]
    by_cases h : t.m_left n = INVALID_TOKEN
    · rw [if_pos h, if_pos h]
      simp
    · rw [if_neg h, if_neg h, List.map_append]
      congr 1
      · rw [ih (t.m_left n) (path ++ [0]), ih (t.m_left n) ([] ++ [0]), List.map_map]
        apply List.map_congr_left
        intro pr _
        simp [List.append_assoc]
      · rw [ih (t.m_right n) (path ++ [1]), ih (t.m_right n) ([] ++ [1]), List.map_map]
        apply List.map_congr_left
        intro pr _
        simp [List.append_assoc]

theorem leafPaths_fst (t : FreqTree) (fuel n : Nat) (path : List Nat) :
    (leafPaths t fuel n path).map Prod.fst = (leafPaths t fuel n []).map Prod.fst := by
  rw [leafPaths_shift t fuel n path, List.map_map]
  rfl

theorem leafPaths_mem (t : FreqTree) (hc : ChildrenDec t) :
    ∀ (fuel n : Nat) (path : List Nat) (pr : Nat × List Nat),
      pr ∈ leafPaths t fuel n path → pr.1 ≤ n ∧ t.m_left pr.1 = INVALID_TOKEN := by
  intro fuel
  induction fuel with
  | zero =>
    intro n path pr h
    exact absurd h (by simp [leafPaths])
  | succ fuel ih =>
    intro n path pr h
    rw [leafPaths] at h
    by_cases hl : t.m_left n = INVALID_TOKEN
    · rw [if_pos hl] at h
      simp only [List.mem_singleton] at h
      subst h
      exact ⟨Nat.le_refl n, hl⟩
    · rw [if_neg hl] at h
      obtain ⟨hrv, hll, hrl⟩ := hc n hl
      rcases List.mem_append.mp h with h | h
      · obtain ⟨h1, h2⟩ := ih (t.m_left n) _ pr h
        exact ⟨by omega, h2⟩
      · obtain ⟨h1, h2⟩ := ih (t.m_right n) _ pr h
        exact ⟨by omega, h2⟩

/-! ### More facts about the minimum scan and sums -/

theorem gsh_found (t : FreqTree) (n : Nat) (h : get_smallest_huffman t n ≠ INVALID_TOKEN) :
    get_smallest_huffman t n < n ∧
    t.m_count (get_smallest_huffman t n) ≠ 0 ∧
    t.m_count (get_smallest_huffman t n) < INVALID_TOKEN ∧
    (∀ j, j < n → t.m_count j ≠ 0 → t.m_count j < INVALID_TOKEN →
      t.m_count (get_smallest_huffman t n) ≤ t.m_count j) := by
  have hh := gsh_inv t n
  rcases hh with ⟨heq, _⟩ | ⟨hlt, hval, hne, hinv, hmin, _⟩
  · exfalso
    apply h
    rw [get_smallest_huffman, heq]
  · rw [get_smallest_huffman]
    refine ⟨hlt, ?_, ?_, ?_⟩
    · rw [← hval]; exact hne
    · rw [← hval]; exact hinv
    · intro j hj h0 hv
      rw [← hval]
      exact hmin j hj h0 hv

theorem sum_upd (f : Nat → Nat) (s : Finset Nat) (j : Nat) (hj : j ∈ s) (v : Nat) :
    (∑ x ∈ s, upd f j v x) + f j = (∑ x ∈ s, f x) + v := by
  rw [← Finset.add_sum_erase s (upd f j v) hj, ← Finset.add_sum_erase s f hj, upd_same]
  have heq : ∑ x ∈ s.erase j, upd f j v x = ∑ x ∈ s.erase j, f x :=
    Finset.sum_congr rfl (fun x hx => upd_other f j v x (Finset.ne_of_mem_erase hx))
  omega

theorem activeCount_as_sum (t : FreqTree) (ni : Nat) :
    activeCount t ni = ∑ j ∈ Finset.range ni, (if t.m_count j = 0 then 0 else 1) := rfl

theorem activeCount_le (t : FreqTree) (ni : Nat) : activeCount t ni ≤ ni := by
  rw [activeCount_as_sum]
  calc ∑ j ∈ Finset.range ni, (if t.m_count j = 0 then 0 else 1)
      ≤ ∑ _j ∈ Finset.range ni, 1 :=
        Finset.sum_le_sum (fun j _ => by split <;> omega)
    _ = ni := by simp

/-! ### The merge loop of `generate_huffman` -/

theorem generate_loop_break1 (fuel : Nat) (t : FreqTree) (ni : Nat)
    (h1 : get_smallest_huffman t ni = INVALID_TOKEN) :
    generate_loop (fuel + 1) t ni = (t, ni) := by
  simp [generate_loop, h1]

theorem generate_loop_break2 (fuel : Nat) (t : FreqTree) (ni : Nat)
    (h1 : get_smallest_huffman t ni ≠ INVALID_TOKEN)
    (h2 : get_smallest_huffman
      { t with m_count := upd t.m_count (get_smallest_huffman t ni) 0 } ni = INVALID_TOKEN) :
    generate_loop (fuel + 1) t ni =
      ({ t with m_count := upd t.m_count (get_smallest_huffman t ni) 0 }, ni) := by
  simp [generate_loop, h1, h2]

theorem generate_loop_merge (fuel : Nat) (t : FreqTree) (ni : Nat)
    (h1 : get_smallest_huffman t ni ≠ INVALID_TOKEN)
    (h2 : get_smallest_huffman
      { t with m_count := upd t.m_count (get_smallest_huffman t ni) 0 } ni ≠ INVALID_TOKEN) :
    generate_loop (fuel + 1) t ni = generate_loop fuel (mergeStep t ni) (ni + 1) := by
  simp [generate_loop, mergeStep, h1, h2]

theorem chDec_of_inv {S : Nat} {t : FreqTree} {ni : Nat} (h : BuildInv S t ni) :
    ChildrenDec t := by
  intro j hj
  have hr := (h.left_iff j).mp hj
  exact ⟨(h.right_iff j).mpr hr, (h.child_lt j hr.1 hr.2).1, (h.child_lt j hr.1 hr.2).2⟩

theorem count_le_sumCount (t : FreqTree) (ni j : Nat) (hj : j < ni) :
    t.m_count j ≤ sumCount t ni :=
  Finset.single_le_sum (fun i _ => Nat.zero_le _) (Finset.mem_range.mpr hj)

theorem leavesOf_count_zero (t : FreqTree) (j v : Nat) (a : Nat) :
    leavesOf { t with m_count := upd t.m_count j v } a = leavesOf t a := by
  unfold leavesOf
  rw [leafPaths_eq_of_lr t { t with m_count := upd t.m_count j v } rfl rfl]

/-- Zeroing one in-range count preserves the build invariant. -/
theorem buildInv_zero (S : Nat) (t : FreqTree) (ni j : Nat)
    (h : BuildInv S t ni) (hj : j < ni) :
    BuildInv S { t with m_count := upd t.m_count j 0 } ni := by
  have hind : (fun x => if upd t.m_count j 0 x = 0 then 0 else 1) =
      upd (fun x => if t.m_count x = 0 then 0 else 1) j 0 := by
    funext x
    by_cases hx : x = j
    · subst hx
      rw [upd_same, upd_same]
      simp
    · rw [upd_other _ _ _ _ hx, upd_other _ _ _ _ hx]
  have hact : activeCount { t with m_count := upd t.m_count j 0 } ni ≤ activeCount t ni := by
    rw [activeCount_as_sum, activeCount_as_sum]
    simp only
    have hL : (∑ x ∈ Finset.range ni, if upd t.m_count j 0 x = 0 then 0 else 1) =
        ∑ x ∈ Finset.range ni, upd (fun x => if t.m_count x = 0 then 0 else 1) j 0 x :=
      Finset.sum_congr rfl (fun x _ => congrFun hind x)
    rw [hL]
    have key := sum_upd (fun x => if t.m_count x = 0 then 0 else 1)
      (Finset.range ni) j (Finset.mem_range.mpr hj) 0
    omega
  have hsum : sumCount { t with m_count := upd t.m_count j 0 } ni ≤ sumCount t ni := by
    unfold sumCount
    simp only
    have key := sum_upd t.m_count (Finset.range ni) j (Finset.mem_range.mpr hj) 0
    omega
  refine ⟨h.ni_ge, by have := h.ni_act; omega, h.left_iff, h.right_iff, h.child_lt,
    ?_, Nat.le_trans hsum h.sum_le, ?_, ?_⟩
  · intro j' hj'
    simp only
    rw [upd_other _ _ _ _ (by omega)]
    exact h.hi_zero j' hj'
  · intro a ha
    rw [leavesOf_count_zero]
    exact h.nodup_all a ha
  · intro a b ha hb hca hcb hab x hxa
    simp only at hca hcb
    have haj : a ≠ j := by
      intro he; subst he; rw [upd_same] at hca; exact hca rfl
    have hbj : b ≠ j := by
      intro he; subst he; rw [upd_same] at hcb; exact hcb rfl
    rw [upd_other _ _ _ _ haj] at hca
    rw [upd_other _ _ _ _ hbj] at hcb
    rw [leavesOf_count_zero] at hxa ⊢
    exact h.disj a b ha hb hca hcb hab x hxa

theorem sum_congr_range (n : Nat) (f g : Nat → Nat) (h : ∀ x, x < n → f x = g x) :
    ∑ x ∈ Finset.range n, f x = ∑ x ∈ Finset.range n, g x :=
  Finset.sum_congr rfl (fun x hx => h x (Finset.mem_range.mp hx))

/-- Creating the merged node at `ni` from two distinct active nodes
preserves the build invariant with the range extended to `ni + 1`. -/
theorem buildInv_merge (S : Nat) (t : FreqTree) (ni i1 i2 : Nat)
    (h : BuildInv S t ni) (hi1 : i1 < ni) (hi2 : i2 < ni) (hne : i1 ≠ i2)
    (hc1 : t.m_count i1 ≠ 0) (hc2 : t.m_count i2 ≠ 0) :
    BuildInv S
      { t with
        m_count := upd (upd (upd t.m_count i1 0) i2 0) ni (t.m_count i1 + t.m_count i2)
        m_left := upd t.m_left ni i1
        m_right := upd t.m_right ni i2 } (ni + 1) := by
  have hTS : TOKEN_SIZE = 256 := rfl
  have hIV : INVALID_TOKEN = 18446744073709551615 := rfl
  have hni_le : ni + activeCount t ni ≤ 2 * TOKEN_SIZE := h.ni_act
  have hni_inv : ni < INVALID_TOKEN := by omega
  have hi1_inv : i1 ≠ INVALID_TOKEN := by omega
  have hi2_inv : i2 ≠ INVALID_TOKEN := by omega
  -- the new count array restricted to indices below ni
  have hcount_lo : ∀ x, x < ni →
      upd (upd (upd t.m_count i1 0) i2 0) ni (t.m_count i1 + t.m_count i2) x =
        upd (upd t.m_count i1 0) i2 0 x :=
    fun x hx => upd_other _ _ _ _ (by omega)
  -- component A: left links
  have hleft : ∀ j, upd t.m_left ni i1 j ≠ INVALID_TOKEN ↔ (TOKEN_SIZE ≤ j ∧ j < ni + 1) := by
    intro j
    by_cases hj : j = ni
    · subst hj
      rw [upd_same]
      constructor
      · intro _
        exact ⟨h.ni_ge, by omega⟩
      · intro _
        exact hi1_inv
    · rw [upd_other _ _ _ _ hj]
      rw [h.left_iff j]
      constructor
      · intro hr; exact ⟨hr.1, by omega⟩
      · intro hr; exact ⟨hr.1, by omega⟩
  -- component B: right links
  have hright : ∀ j, upd t.m_right ni i2 j ≠ INVALID_TOKEN ↔ (TOKEN_SIZE ≤ j ∧ j < ni + 1) := by
    intro j
    by_cases hj : j = ni
    · subst hj
      rw [upd_same]
      constructor
      · intro _
        exact ⟨h.ni_ge, by omega⟩
      · intro _
        exact hi2_inv
    · rw [upd_other _ _ _ _ hj]
      rw [h.right_iff j]
      constructor
      · intro hr; exact ⟨hr.1, by omega⟩
      · intro hr; exact ⟨hr.1, by omega⟩
  -- component C: children decrease
  have hchild : ∀ j, TOKEN_SIZE ≤ j → j < ni + 1 →
      upd t.m_left ni i1 j < j ∧ upd t.m_right ni i2 j < j := by
    intro j hj1 hj2
    by_cases hj : j = ni
    · subst hj
      rw [upd_same, upd_same]
      exact ⟨hi1, hi2⟩
    · rw [upd_other _ _ _ _ hj, upd_other _ _ _ _ hj]
      exact h.child_lt j hj1 (by omega)
  -- the new tree and its children-decrease property
  have hcd : ChildrenDec
      { t with
        m_count := upd (upd (upd t.m_count i1 0) i2 0) ni (t.m_count i1 + t.m_count i2)
        m_left := upd t.m_left ni i1
        m_right := upd t.m_right ni i2 } := by
    intro j hj
    have hr := (hleft j).mp hj
    refine ⟨(hright j).mpr hr, ?_, ?_⟩
    · exact (hchild j hr.1 hr.2).1
    · exact (hchild j hr.1 hr.2).2
  -- leaves of old nodes are unchanged
  have hleaves_lo : ∀ a, a < ni →
      leavesOf
        { t with
          m_count := upd (upd (upd t.m_count i1 0) i2 0) ni (t.m_count i1 + t.m_count i2)
          m_left := upd t.m_left ni i1
          m_right := upd t.m_right ni i2 } a = leavesOf t a := by
    intro a ha
    unfold leavesOf
    rw [leafPaths_congr_le t _ hcd (a + 1) a [] ?_]
    intro j hj
    constructor
    · exact upd_other _ _ _ _ (by omega)
    · exact upd_other _ _ _ _ (by omega)
  -- leaves of the new node
  have hleaves_hi :
      leavesOf
        { t with
          m_count := upd (upd (upd t.m_count i1 0) i2 0) ni (t.m_count i1 + t.m_count i2)
          m_left := upd t.m_left ni i1
          m_right := upd t.m_right ni i2 } ni = leavesOf t i1 ++ leavesOf t i2 := by
    unfold leavesOf
    rw [leafPaths]
    dsimp only
    have hl_ni : upd t.m_left ni i1 ni = i1 := upd_same _ _ _
    have hr_ni : upd t.m_right ni i2 ni = i2 := upd_same _ _ _
    have hnl : ¬(upd t.m_left ni i1 ni = INVALID_TOKEN) := by
      rw [hl_ni]; exact hi1_inv
    rw [if_neg hnl, hl_ni, hr_ni, List.map_append]
    congr 1
    · rw [leafPaths_fuel _ hcd ni (i1 + 1) i1 ([] ++ [0]) hi1 (Nat.lt_succ_self i1),
          leafPaths_congr_le t _ hcd (i1 + 1) i1 ([] ++ [0])
            (fun j hj => ⟨upd_other _ _ _ _ (by omega), upd_other _ _ _ _ (by omega)⟩),
          leafPaths_fst]
    · rw [leafPaths_fuel _ hcd ni (i2 + 1) i2 ([] ++ [1]) hi2 (Nat.lt_succ_self i2),
          leafPaths_congr_le t _ hcd (i2 + 1) i2 ([] ++ [1])
            (fun j hj => ⟨upd_other _ _ _ _ (by omega), upd_other _ _ _ _ (by omega)⟩),
          leafPaths_fst]
  -- active nodes below ni after the two removals
  have hind2 : ∀ x, x < ni →
      (if upd (upd (upd t.m_count i1 0) i2 0) ni (t.m_count i1 + t.m_count i2) x = 0
        then 0 else 1) =
      upd (upd (fun y => if t.m_count y = 0 then 0 else 1) i1 0) i2 0 x := by
    intro x hx
    rw [hcount_lo x hx]
    by_cases hx2 : x = i2
    · subst hx2
      rw [upd_same, upd_same]
      simp
    · rw [upd_other _ _ _ _ hx2, upd_other _ _ _ _ hx2]
      by_cases hx1 : x = i1
      · subst hx1
        rw [upd_same, upd_same]
        simp
      · rw [upd_other _ _ _ _ hx1, upd_other _ _ _ _ hx1]
  refine ⟨by have := h.ni_ge; omega, ?_, hleft, hright, hchild, ?_, ?_, ?_, ?_⟩
  · -- ni_act
    show ni + 1 + activeCount _ (ni + 1) ≤ 2 * TOKEN_SIZE
    rw [activeCount_as_sum, Finset.sum_range_succ]
    dsimp only
    have hA : (∑ j ∈ Finset.range ni,
        (if upd (upd (upd t.m_count i1 0) i2 0) ni (t.m_count i1 + t.m_count i2) j = 0
          then 0 else 1)) =
        ∑ j ∈ Finset.range ni, upd (upd (fun y => if t.m_count y = 0 then 0 else 1) i1 0) i2 0 j :=
      sum_congr_range ni _ _ hind2
    have hk1 := sum_upd (upd (fun y => if t.m_count y = 0 then 0 else 1) i1 0)
      (Finset.range ni) i2 (Finset.mem_range.mpr hi2) 0
    have hk2 := sum_upd (fun y => if t.m_count y = 0 then 0 else 1)
      (Finset.range ni) i1 (Finset.mem_range.mpr hi1) 0
    have hv1 : upd (fun y => if t.m_count y = 0 then 0 else 1) i1 0 i2 =
        (if t.m_count i2 = 0 then 0 else 1) := upd_other _ _ _ _ (Ne.symm hne)
    have hval2 : (if t.m_count i2 = 0 then 0 else 1) = 1 := by simp [hc2]
    have hval1 : (if t.m_count i1 = 0 then 0 else 1) = 1 := by simp [hc1]
    have hnode : (if upd (upd (upd t.m_count i1 0) i2 0) ni (t.m_count i1 + t.m_count i2) ni = 0
        then 0 else 1) = 1 := by
      rw [upd_same]
      have hnz : t.m_count i1 + t.m_count i2 ≠ 0 := by omega
      rw [if_neg hnz]
    have hact := h.ni_act
    rw [activeCount_as_sum] at hact
    rw [hA, hnode]
    rw [hv1, hval2] at hk1
    rw [hval1] at hk2
    omega
  · -- hi_zero
    intro j hj
    show upd (upd (upd t.m_count i1 0) i2 0) ni (t.m_count i1 + t.m_count i2) j = 0
    rw [upd_other _ _ _ _ (by omega), upd_other _ _ _ _ (by omega),
        upd_other _ _ _ _ (by omega)]
    exact h.hi_zero j (by omega)
  · -- sum_le
    show sumCount _ (ni + 1) ≤ S
    unfold sumCount
    rw [Finset.sum_range_succ]
    dsimp only
    have hA : (∑ j ∈ Finset.range ni,
        upd (upd (upd t.m_count i1 0) i2 0) ni (t.m_count i1 + t.m_count i2) j) =
        ∑ j ∈ Finset.range ni, upd (upd t.m_count i1 0) i2 0 j :=
      sum_congr_range ni _ _ hcount_lo
    have hk1 := sum_upd (upd t.m_count i1 0) (Finset.range ni) i2 (Finset.mem_range.mpr hi2) 0
    have hk2 := sum_upd t.m_count (Finset.range ni) i1 (Finset.mem_range.mpr hi1) 0
    have hv1 : upd t.m_count i1 0 i2 = t.m_count i2 := upd_other _ _ _ _ (Ne.symm hne)
    have hsum := h.sum_le
    unfold sumCount at hsum
    rw [hA, upd_same]
    rw [hv1] at hk1
    omega
  · -- nodup_all
    intro a ha
    by_cases haa : a = ni
    · rw [haa, hleaves_hi, List.nodup_append]
      exact ⟨h.nodup_all i1 hi1, h.nodup_all i2 hi2,
        fun x hx1 hx2 => h.disj i1 i2 hi1 hi2 hc1 hc2 hne x hx1 hx2⟩
    · rw [hleaves_lo a (by omega)]
      exact h.nodup_all a (by omega)
  · -- disj
    intro a b ha hb hca hcb hab x hxa
    have hlow : ∀ y, y < ni →
        upd (upd (upd t.m_count i1 0) i2 0) ni (t.m_count i1 + t.m_count i2) y ≠ 0 →
        (y ≠ i1 ∧ y ≠ i2 ∧ t.m_count y ≠ 0) := by
      intro y hy hcy
      rw [hcount_lo y hy] at hcy
      by_cases hy2 : y = i2
      · subst hy2; rw [upd_same] at hcy; exact absurd rfl hcy
      · rw [upd_other _ _ _ _ hy2] at hcy
        by_cases hy1 : y = i1
        · subst hy1; rw [upd_same] at hcy; exact absurd rfl hcy
        · rw [upd_other _ _ _ _ hy1] at hcy
          exact ⟨hy1, hy2, hcy⟩
    by_cases haa : a = ni
    · have hbn : b ≠ ni := fun he => hab (by rw [haa, he])
      have hb' : b < ni := by omega
      obtain ⟨hb1, hb2, hcb'⟩ := hlow b hb' hcb
      rw [haa, hleaves_hi] at hxa
      rw [hleaves_lo b hb']
      rcases List.mem_append.mp hxa with hx | hx
      · exact h.disj i1 b hi1 hb' hc1 hcb' (fun he => hb1 he.symm) x hx
      · exact h.disj i2 b hi2 hb' hc2 hcb' (fun he => hb2 he.symm) x hx
    · have ha' : a < ni := by omega
      obtain ⟨ha1, ha2, hca'⟩ := hlow a ha' hca
      rw [hleaves_lo a ha'] at hxa
      by_cases hbb : b = ni
      · rw [hbb, hleaves_hi]
        intro hx
        rcases List.mem_append.mp hx with hx | hx
        · exact h.disj a i1 ha' hi1 hca' hc1 ha1 x hxa hx
        · exact h.disj a i2 ha' hi2 hca' hc2 ha2 x hxa hx
      · have hb' : b < ni := by omega
        obtain ⟨hb1, hb2, hcb'⟩ := hlow b hb' hcb
        rw [hleaves_lo b hb']
        exact h.disj a b ha' hb' hca' hcb' hab x hxa

theorem mergeStep_eq (t : FreqTree) (ni : Nat)
    (hne : get_smallest_huffman
        { t with m_count := upd t.m_count (get_smallest_huffman t ni) 0 } ni ≠
      get_smallest_huffman t ni) :
    mergeStep t ni =
      { t with
        m_count := upd (upd (upd t.m_count (get_smallest_huffman t ni) 0)
            (get_smallest_huffman
              { t with m_count := upd t.m_count (get_smallest_huffman t ni) 0 } ni) 0) ni
          (t.m_count (get_smallest_huffman t ni) +
            t.m_count (get_smallest_huffman
              { t with m_count := upd t.m_count (get_smallest_huffman t ni) 0 } ni))
        m_left := upd t.m_left ni (get_smallest_huffman t ni)
        m_right := upd t.m_right ni
          (get_smallest_huffman
            { t with m_count := upd t.m_count (get_smallest_huffman t ni) 0 } ni) } := by
  simp only [mergeStep]
  rw [upd_other _ _ _ _ hne]

theorem generate_loop_inv (S : Nat) :
    ∀ (fuel : Nat) (t : FreqTree) (ni : Nat), BuildInv S t ni →
      BuildInv S (generate_loop fuel t ni).1 (generate_loop fuel t ni).2 ∧
      ni ≤ (generate_loop fuel t ni).2 ∧
      (generate_loop fuel t ni).1.m_top = t.m_top := by
  intro fuel
  induction fuel with
  | zero => intro t ni h; exact ⟨h, Nat.le_refl _, rfl⟩
  | succ fuel ih =>
    intro t ni h
    by_cases h1 : get_smallest_huffman t ni = INVALID_TOKEN
    · rw [generate_loop_break1 fuel t ni h1]
      exact ⟨h, Nat.le_refl _, rfl⟩
    · obtain ⟨hi1, hc1, hv1, _⟩ := gsh_found t ni h1
      by_cases h2 : get_smallest_huffman
          { t with m_count := upd t.m_count (get_smallest_huffman t ni) 0 } ni = INVALID_TOKEN
      · rw [generate_loop_break2 fuel t ni h1 h2]
        exact ⟨buildInv_zero S t ni _ h hi1, Nat.le_refl _, rfl⟩
      · obtain ⟨hi2, hc2, _, _⟩ := gsh_found _ ni h2
        have hne : get_smallest_huffman
            { t with m_count := upd t.m_count (get_smallest_huffman t ni) 0 } ni ≠
            get_smallest_huffman t ni := by
          intro he
          apply hc2
          show upd t.m_count (get_smallest_huffman t ni) 0 _ = 0
          rw [he]
          exact upd_same _ _ _
        have hc2' : t.m_count (get_smallest_huffman
            { t with m_count := upd t.m_count (get_smallest_huffman t ni) 0 } ni) ≠ 0 := by
          have hc2'' : upd t.m_count (get_smallest_huffman t ni) 0
              (get_smallest_huffman
                { t with m_count := upd t.m_count (get_smallest_huffman t ni) 0 } ni) ≠ 0 := hc2
          rwa [upd_other _ _ _ _ hne] at hc2''
        have hInv := buildInv_merge S t ni (get_smallest_huffman t ni)
          (get_smallest_huffman
            { t with m_count := upd t.m_count (get_smallest_huffman t ni) 0 } ni)
          h hi1 hi2 (Ne.symm hne) hc1 hc2'
        rw [generate_loop_merge fuel t ni h1 h2, mergeStep_eq t ni hne]
        obtain ⟨hI, hle, htop⟩ := ih _ (ni + 1) hInv
        exact ⟨hI, by omega, htop⟩

theorem buildInv_retop (S : Nat) (t : FreqTree) (ni x : Nat) (h : BuildInv S t ni) :
    BuildInv S { t with m_top := x } ni := by
  have hlv : ∀ a, leavesOf { t with m_top := x } a = leavesOf t a := by
    intro a
    unfold leavesOf
    rw [leafPaths_eq_of_lr t { t with m_top := x } rfl rfl]
  refine ⟨h.ni_ge, h.ni_act, h.left_iff, h.right_iff, h.child_lt, h.hi_zero, h.sum_le, ?_, ?_⟩
  · intro a ha
    rw [hlv a]
    exact h.nodup_all a ha
  · intro a b ha hb hca hcb hab y hy
    rw [hlv a] at hy
    rw [hlv b]
    exact h.disj a b ha hb hca hcb hab y hy

/-- A fresh frequency table (all links invalid, counts supported below
`TOKEN_SIZE`) satisfies the invariant at `ni = TOKEN_SIZE`. -/
theorem buildInv_init (t0 : FreqTree)
    (hl : ∀ j, t0.m_left j = INVALID_TOKEN) (hr : ∀ j, t0.m_right j = INVALID_TOKEN)
    (hhi : ∀ j, TOKEN_SIZE ≤ j → t0.m_count j = 0) :
    BuildInv (sumCount t0 TOKEN_SIZE) t0 TOKEN_SIZE := by
  have hlv : ∀ a, leavesOf t0 a = [a] := by
    intro a
    unfold leavesOf
    rw [leafPaths, if_pos (hl a)]
    rfl
  refine ⟨Nat.le_refl _, ?_, ?_, ?_, ?_, hhi, Nat.le_refl _, ?_, ?_⟩
  · have := activeCount_le t0 TOKEN_SIZE
    omega
  · intro j
    constructor
    · intro hj; exact absurd (hl j) hj
    · intro hj; exact absurd hj (by omega)
  · intro j
    constructor
    · intro hj; exact absurd (hr j) hj
    · intro hj; exact absurd hj (by omega)
  · intro j hj1 hj2
    exact absurd (And.intro hj1 hj2) (by omega)
  · intro a _
    rw [hlv a]
    exact List.nodup_singleton a
  · intro a b _ _ _ _ hab x hxa
    rw [hlv a] at hxa
    rw [hlv b]
    simp only [List.mem_singleton] at hxa ⊢
    omega

/-- Running `generate_huffman` on a fresh frequency table yields a tree
satisfying the build invariant, with `m_top` one below the loop's final
`new_index`. -/
theorem generate_huffman_spec (t0 : FreqTree)
    (hl : ∀ j, t0.m_left j = INVALID_TOKEN) (hr : ∀ j, t0.m_right j = INVALID_TOKEN)
    (hhi : ∀ j, TOKEN_SIZE ≤ j → t0.m_count j = 0) :
    BuildInv (sumCount t0 TOKEN_SIZE) (generate_huffman t0)
      (generate_loop (TOKEN_SIZE + 1) t0 TOKEN_SIZE).2 ∧
    (generate_huffman t0).m_top = (generate_loop (TOKEN_SIZE + 1) t0 TOKEN_SIZE).2 - 1 ∧
    TOKEN_SIZE ≤ (generate_loop (TOKEN_SIZE + 1) t0 TOKEN_SIZE).2 := by
  have h0 := buildInv_init t0 hl hr hhi
  obtain ⟨hI, hle, _⟩ := generate_loop_inv _ (TOKEN_SIZE + 1) t0 TOKEN_SIZE h0
  exact ⟨buildInv_retop _ _ _ _ hI, rfl, hle⟩

theorem leaves_lt_of_inv (S : Nat) (t : FreqTree) (ni : Nat) (h : BuildInv S t ni)
    (a : Nat) (ha : a < ni) : ∀ x ∈ leavesOf t a, x < TOKEN_SIZE := by
  intro x hx
  obtain ⟨pr, hpr, hfst⟩ := List.mem_map.mp hx
  have hm := leafPaths_mem t (chDec_of_inv h) (a + 1) a [] pr hpr
  by_contra hge
  push_neg at hge
  rw [← hfst] at hge
  exact ((h.left_iff pr.1).mpr ⟨hge, by omega⟩) hm.2

/-! ### Writing codes into the packed table -/

theorem getD_reverse (l : List Nat) (j : Nat) (hj : j < l.length) :
    l.reverse.getD (l.length - 1 - j) 0 = l.getD j 0 := by
  rw [List.getD_eq_getElem?_getD, List.getD_eq_getElem?_getD]
  rw [List.getElem?_reverse (by omega)]
  congr 2
  omega

theorem pathsTotal_append (L1 L2 : List (Nat × List Nat)) :
    pathsTotal (L1 ++ L2) = pathsTotal L1 + pathsTotal L2 := by
  unfold pathsTotal
  rw [List.map_append, List.sum_append]

theorem codeSpec_append (L1 L2 : List (Nat × List Nat)) :
    ∀ c, codeSpec c (L1 ++ L2) = codeSpec c L1 ++ codeSpec (c + pathsTotal L1) L2 := by
  induction L1 with
  | nil =>
    intro c
    simp [codeSpec, pathsTotal]
  | cons pr rest ih =>
    intro c
    obtain ⟨tok, p⟩ := pr
    rw [List.cons_append, codeSpec, codeSpec, ih]
    have : c + p.length + pathsTotal rest = c + pathsTotal ((tok, p) :: rest) := by
      unfold pathsTotal
      simp
      omega
    rw [this]
    rfl

theorem codeSpec_mem (L : List (Nat × List Nat)) :
    ∀ (c : Nat) (tok o : Nat) (pa : List Nat),
      (tok, o, pa) ∈ codeSpec c L → (tok, pa) ∈ L ∧ c ≤ o ∧ o + pa.length ≤ c + pathsTotal L := by
  induction L with
  | nil => intro c tok o pa h; exact absurd h (by simp [codeSpec])
  | cons pr rest ih =>
    intro c tok o pa h
    obtain ⟨tok', p'⟩ := pr
    rw [codeSpec] at h
    rcases List.mem_cons.mp h with h | h
    · simp only [Prod.mk.injEq] at h
      obtain ⟨h1, h2, h3⟩ := h
      subst h1; subst h2; subst h3
      refine ⟨List.mem_cons_self _ _, Nat.le_refl _, ?_⟩
      unfold pathsTotal
      simp
    · obtain ⟨hm, hlo, hhi⟩ := ih (c + p'.length) tok o pa h
      refine ⟨List.mem_cons_of_mem _ hm, by omega, ?_⟩
      have : pathsTotal ((tok', p') :: rest) = p'.length + pathsTotal rest := by
        unfold pathsTotal
        simp
      omega

theorem codeSpec_mem_of_mem (L : List (Nat × List Nat)) :
    ∀ (c : Nat) (tok : Nat) (pa : List Nat),
      (tok, pa) ∈ L → ∃ o, (tok, o, pa) ∈ codeSpec c L := by
  induction L with
  | nil => intro c tok pa h; exact absurd h (by simp)
  | cons pr rest ih =>
    intro c tok pa h
    obtain ⟨tok', p'⟩ := pr
    rcases List.mem_cons.mp h with h | h
    · obtain ⟨h1, h2⟩ := Prod.mk.injEq .. ▸ h
      exact ⟨c, by rw [codeSpec, h1, h2]; exact List.mem_cons_self _ _⟩
    · obtain ⟨o, ho⟩ := ih (c + p'.length) tok pa h
      exact ⟨o, by rw [codeSpec]; exact List.mem_cons_of_mem _ ho⟩

theorem or_of_le_one (v : Nat) (hv : v ≤ 1) : 0 ||| v = v := by
  have : v = 0 ∨ v = 1 := by omega
  rcases this with h | h <;> subst h <;> rfl

/-- Full description of the backward chain-writing loop: starting from
`write_offset = w`, it writes `chain[i]` at bit address `w - 1 - i`,
touches nothing else, and preserves all other table fields. -/
theorem writeChain_spec (chain : List Nat) :
    ∀ (p : EncodedTable) (w : Nat),
      chain.length ≤ w → (∀ v ∈ chain, v ≤ 1) →
      (writeChain p w chain).m_offset = p.m_offset ∧
      (writeChain p w chain).m_bitcount = p.m_bitcount ∧
      (writeChain p w chain).m_currentOffset = p.m_currentOffset ∧
      (∀ a, (a < w - chain.length ∨ w ≤ a) →
        getPackedBit (writeChain p w chain) a = getPackedBit p a) ∧
      (∀ i, i < chain.length → getPackedBit p (w - 1 - i) = 0 →
        getPackedBit (writeChain p w chain) (w - 1 - i) = chain.getD i 0) := by
  induction chain with
  | nil =>
    intro p w _ _
    exact ⟨rfl, rfl, rfl, fun a _ => rfl, fun i hi _ => absurd hi (by simp)⟩
  | cons v rest ih =>
    intro p w hw hv
    have hv1 : v ≤ 1 := hv v (List.mem_cons_self v rest)
    have hlen : (v :: rest).length = rest.length + 1 := rfl
    have hw1 : rest.length ≤ w - 1 := by rw [hlen] at hw; omega
    have hwc : writeChain p w (v :: rest) =
        writeChain (set_encoded_bit p (w - 1) v) (w - 1) rest := rfl
    obtain ⟨ih_off, ih_bc, ih_cur, ih_un, ih_wr⟩ :=
      ih (set_encoded_bit p (w - 1) v) (w - 1) hw1 (fun x hx => hv x (List.mem_cons_of_mem v hx))
    rw [hwc]
    refine ⟨by rw [ih_off]; rfl, by rw [ih_bc]; rfl, by rw [ih_cur]; rfl, ?_, ?_⟩
    · intro a ha
      rw [ih_un a (by rw [hlen] at ha; omega)]
      exact getPackedBit_set_other p (w - 1) v a hv1 (by rw [hlen] at ha; omega)
    · intro i hi h0
      cases i with
      | zero =>
        have haddr : w - 1 - 0 = w - 1 := by omega
        rw [haddr] at h0 ⊢
        rw [ih_un (w - 1) (Or.inr (Nat.le_refl _))]
        rw [getPackedBit_set_self p (w - 1) v hv1, h0, or_of_le_one v hv1]
        rfl
      | succ i' =>
        have hi' : i' < rest.length := by rw [hlen] at hi; omega
        have haddr : w - 1 - (i' + 1) = (w - 1) - 1 - i' := by omega
        rw [haddr] at h0 ⊢
        have hne : (w - 1) - 1 - i' ≠ w - 1 := by
          rw [hlen] at hw
          omega
        rw [← getPackedBit_set_other p (w - 1) v _ hv1 hne] at h0
        rw [ih_wr i' hi' h0]
        rfl

/-- The writing pass of `freq_tree_traverse` implements `TravWriteOut`,
provided the tree's children decrease, the fuel dominates the node index,
the accumulated path holds bits, the table bits at and above the cursor
are clear, and the leaves below `n` are pairwise distinct. -/
theorem traverse_write_spec :
    ∀ (fuel : Nat) (t : FreqTree) (n : Nat) (path : List Nat) (pEnc : EncodedTable),
      ChildrenDec t → n < fuel → (∀ v ∈ path, v ≤ 1) →
      (∀ a, pEnc.m_currentOffset ≤ a → getPackedBit pEnc a = 0) →
      ((leafPaths t fuel n path).map Prod.fst).Nodup →
      TravWriteOut pEnc (leafPaths t fuel n path)
        (freq_tree_traverse fuel pEnc t n path.reverse path.length false) := by
  intro fuel
  induction fuel with
  | zero =>
    intro t n path pEnc _ hn _ _ _
    exact absurd hn (Nat.not_lt_zero n)
  | succ fuel ih =>
    intro t n path pEnc hcd hn hv h0 hnd
    by_cases hl : t.m_left n = INVALID_TOKEN
    · -- leaf: the code of `n` is written backward into its fresh range
      have hlp : leafPaths t (fuel + 1) n path = [(n, path)] := by
        rw [leafPaths, if_pos hl]
      have htr : freq_tree_traverse (fuel + 1) pEnc t n path.reverse path.length false =
          (writeChain
            { pEnc with
              m_offset := upd pEnc.m_offset n pEnc.m_currentOffset
              m_currentOffset := pEnc.m_currentOffset + path.length }
            (pEnc.m_currentOffset + path.length) path.reverse, path.length) := by
        simp only [freq_tree_traverse, if_pos hl, if_neg Bool.false_ne_true]
      have hptot : pathsTotal [(n, path)] = path.length := by
        simp [pathsTotal]
      obtain ⟨w_off, w_bc, w_cur, w_un, w_wr⟩ :=
        writeChain_spec path.reverse
          { pEnc with
            m_offset := upd pEnc.m_offset n pEnc.m_currentOffset
            m_currentOffset := pEnc.m_currentOffset + path.length }
          (pEnc.m_currentOffset + path.length)
          (by rw [List.length_reverse]; omega)
          (fun v hv' => hv v (List.mem_reverse.mp hv'))
      rw [TravWriteOut, htr, hlp, hptot]
      refine ⟨rfl, ?_, ?_, ?_, ?_, ?_, ?_⟩
      · rw [w_cur]
      · rw [w_bc]
      · intro tok htok
        simp only [List.map_cons, List.map_nil, List.mem_singleton] at htok
        rw [w_off]
        exact upd_other _ _ _ _ htok
      · intro a ha
        have hun := w_un a (by rw [List.length_reverse]; omega)
        rw [hun]
        rfl
      · intro a ha
        have hun := w_un a (by rw [List.length_reverse]; omega)
        rw [hun]
        exact h0 a (by omega)
      · intro tok o pa hmem
        have hcs : codeSpec pEnc.m_currentOffset [(n, path)] =
            [(n, pEnc.m_currentOffset, path)] := by
          rw [codeSpec]
          rfl
        rw [hcs, List.mem_singleton] at hmem
        simp only [Prod.mk.injEq] at hmem
        obtain ⟨he1, he2, he3⟩ := hmem
        rw [he1, he2, he3]
        constructor
        · rw [w_off]
          exact upd_same _ _ _
        · intro j hj
          have hi : path.length - 1 - j < path.reverse.length := by
            rw [List.length_reverse]; omega
          have haddr : pEnc.m_currentOffset + path.length - 1 - (path.length - 1 - j) =
              pEnc.m_currentOffset + j := by omega
          have hz : getPackedBit
              { pEnc with
                m_offset := upd pEnc.m_offset n pEnc.m_currentOffset
                m_currentOffset := pEnc.m_currentOffset + path.length }
              (pEnc.m_currentOffset + path.length - 1 - (path.length - 1 - j)) = 0 := by
            rw [haddr]
            exact h0 _ (by omega)
          have hw := w_wr (path.length - 1 - j) hi hz
          rw [haddr] at hw
          rw [hw]
          exact getD_reverse path j hj
    · -- internal: left subtree first, then right at the advanced cursor
      obtain ⟨hrv, hll, hrl⟩ := hcd n hl
      have hlp : leafPaths t (fuel + 1) n path =
          leafPaths t fuel (t.m_left n) (path ++ [0]) ++
            leafPaths t fuel (t.m_right n) (path ++ [1]) := by
        rw [leafPaths, if_neg hl]
      have htr : freq_tree_traverse (fuel + 1) pEnc t n path.reverse path.length false =
          ((freq_tree_traverse fuel
              (freq_tree_traverse fuel pEnc t (t.m_left n)
                (0 :: path.reverse) (path.length + 1) false).1
              t (t.m_right n) (1 :: path.reverse) (path.length + 1) false).1,
            (freq_tree_traverse fuel pEnc t (t.m_left n)
              (0 :: path.reverse) (path.length + 1) false).2 +
            (freq_tree_traverse fuel
              (freq_tree_traverse fuel pEnc t (t.m_left n)
                (0 :: path.reverse) (path.length + 1) false).1
              t (t.m_right n) (1 :: path.reverse) (path.length + 1) false).2) := by
        simp only [freq_tree_traverse, if_neg hl]
      rw [hlp, List.map_append, List.nodup_append] at hnd
      obtain ⟨hnd1, hnd2, hdisj⟩ := hnd
      have hv0 : ∀ v ∈ path ++ [0], v ≤ 1 := by
        intro v hv'
        rcases List.mem_append.mp hv' with hm | hm
        · exact hv v hm
        · rw [List.mem_singleton] at hm; omega
      have hv1 : ∀ v ∈ path ++ [1], v ≤ 1 := by
        intro v hv'
        rcases List.mem_append.mp hv' with hm | hm
        · exact hv v hm
        · rw [List.mem_singleton] at hm; omega
      have hrev0 : (path ++ [0]).reverse = 0 :: path.reverse := by simp
      have hrev1 : (path ++ [1]).reverse = 1 :: path.reverse := by simp
      have hlen01 : (path ++ [0]).length = path.length + 1 := by simp
      have hlen11 : (path ++ [1]).length = path.length + 1 := by simp
      have ih1 := ih t (t.m_left n) (path ++ [0]) pEnc hcd (by omega) hv0 h0 hnd1
      rw [hrev0, hlen01] at ih1
      obtain ⟨A1, A2, A3, A4, A5, A6, A7⟩ := ih1
      have h0' : ∀ a, (freq_tree_traverse fuel pEnc t (t.m_left n)
          (0 :: path.reverse) (path.length + 1) false).1.m_currentOffset ≤ a →
          getPackedBit (freq_tree_traverse fuel pEnc t (t.m_left n)
            (0 :: path.reverse) (path.length + 1) false).1 a = 0 := by
        intro a ha
        rw [A2] at ha
        exact A6 a ha
      have ih2 := ih t (t.m_right n) (path ++ [1])
        (freq_tree_traverse fuel pEnc t (t.m_left n)
          (0 :: path.reverse) (path.length + 1) false).1 hcd (by omega) hv1 h0' hnd2
      rw [hrev1, hlen11] at ih2
      obtain ⟨B1, B2, B3, B4, B5, B6, B7⟩ := ih2
      rw [TravWriteOut, htr, hlp]
      rw [pathsTotal_append]
      refine ⟨?_, ?_, ?_, ?_, ?_, ?_, ?_⟩
      · simp only
        rw [A1, B1]
      · simp only
        rw [B2, A2]
        omega
      · simp only
        rw [B3, A3]
      · intro tok htok
        simp only
        rw [List.map_append, List.mem_append] at htok
        push_neg at htok
        rw [B4 tok htok.2, A4 tok htok.1]
      · intro a ha
        simp only
        rw [B5 a (by rw [A2]; omega), A5 a ha]
      · intro a ha
        simp only
        exact B6 a (by rw [A2]; omega)
      · intro tok o pa hmem
        simp only
        rw [codeSpec_append] at hmem
        rcases List.mem_append.mp hmem with hm | hm
        · obtain ⟨hoff, hbits⟩ := A7 tok o pa hm
          obtain ⟨hmemL, hlo, hhi⟩ := codeSpec_mem _ _ tok o pa hm
          have hfst : tok ∈ (leafPaths t fuel (t.m_left n) (path ++ [0])).map Prod.fst := by
            exact List.mem_map.mpr ⟨(tok, pa), hmemL, rfl⟩
          have hnotR : tok ∉ (leafPaths t fuel (t.m_right n) (path ++ [1])).map Prod.fst :=
            hdisj hfst
          constructor
          · rw [B4 tok hnotR, hoff]
          · intro j hj
            rw [B5 (o + j) (by rw [A2]; omega)]
            exact hbits j hj
        · rw [← A2] at hm
          exact B7 tok o pa hm

/-- The counting pass (`onlyCount = 1`) only fills in `m_bitcount`:
each traversed leaf gets its depth, and nothing else changes. -/
theorem traverse_count_spec :
    ∀ (fuel : Nat) (t : FreqTree) (n : Nat) (path : List Nat) (pEnc : EncodedTable),
      ChildrenDec t → n < fuel →
      ((leafPaths t fuel n path).map Prod.fst).Nodup →
      (freq_tree_traverse fuel pEnc t n path.reverse path.length true).2 =
        pathsTotal (leafPaths t fuel n path) ∧
      (freq_tree_traverse fuel pEnc t n path.reverse path.length true).1.m_packedData =
        pEnc.m_packedData ∧
      (freq_tree_traverse fuel pEnc t n path.reverse path.length true).1.m_offset =
        pEnc.m_offset ∧
      (freq_tree_traverse fuel pEnc t n path.reverse path.length true).1.m_currentOffset =
        pEnc.m_currentOffset ∧
      (∀ tok, tok ∉ (leafPaths t fuel n path).map Prod.fst →
        (freq_tree_traverse fuel pEnc t n path.reverse path.length true).1.m_bitcount tok =
          pEnc.m_bitcount tok) ∧
      (∀ pr ∈ leafPaths t fuel n path,
        (freq_tree_traverse fuel pEnc t n path.reverse path.length true).1.m_bitcount pr.1 =
          pr.2.length) := by
  intro fuel
  induction fuel with
  | zero =>
    intro t n path pEnc _ hn _
    exact absurd hn (Nat.not_lt_zero n)
  | succ fuel ih =>
    intro t n path pEnc hcd hn hnd
    by_cases hl : t.m_left n = INVALID_TOKEN
    · have hlp : leafPaths t (fuel + 1) n path = [(n, path)] := by
        rw [leafPaths, if_pos hl]
      have htr : freq_tree_traverse (fuel + 1) pEnc t n path.reverse path.length true =
          ({ pEnc with m_bitcount := upd pEnc.m_bitcount n path.length }, path.length) := by
        simp only [freq_tree_traverse, if_pos hl, if_pos rfl, if_true]
      rw [htr, hlp]
      refine ⟨by simp [pathsTotal], rfl, rfl, rfl, ?_, ?_⟩
      · intro tok htok
        simp only [List.map_cons, List.map_nil, List.mem_singleton] at htok
        exact upd_other _ _ _ _ htok
      · intro pr hpr
        rw [List.mem_singleton] at hpr
        rw [hpr]
        exact upd_same _ _ _
    · obtain ⟨hrv, hll, hrl⟩ := hcd n hl
      have hlp : leafPaths t (fuel + 1) n path =
          leafPaths t fuel (t.m_left n) (path ++ [0]) ++
            leafPaths t fuel (t.m_right n) (path ++ [1]) := by
        rw [leafPaths, if_neg hl]
      have htr : freq_tree_traverse (fuel + 1) pEnc t n path.reverse path.length true =
          ((freq_tree_traverse fuel
              (freq_tree_traverse fuel pEnc t (t.m_left n)
                (0 :: path.reverse) (path.length + 1) true).1
              t (t.m_right n) (1 :: path.reverse) (path.length + 1) true).1,
            (freq_tree_traverse fuel pEnc t (t.m_left n)
              (0 :: path.reverse) (path.length + 1) true).2 +
            (freq_tree_traverse fuel
              (freq_tree_traverse fuel pEnc t (t.m_left n)
                (0 :: path.reverse) (path.length + 1) true).1
              t (t.m_right n) (1 :: path.reverse) (path.length + 1) true).2) := by
        simp only [freq_tree_traverse, if_neg hl]
      rw [hlp, List.map_append, List.nodup_append] at hnd
      obtain ⟨hnd1, hnd2, hdisj⟩ := hnd
      have hrev0 : (path ++ [0]).reverse = 0 :: path.reverse := by simp
      have hrev1 : (path ++ [1]).reverse = 1 :: path.reverse := by simp
      have hlen01 : (path ++ [0]).length = path.length + 1 := by simp
      have hlen11 : (path ++ [1]).length = path.length + 1 := by simp
      have ih1 := ih t (t.m_left n) (path ++ [0]) pEnc hcd (by omega) hnd1
      rw [hrev0, hlen01] at ih1
      obtain ⟨A1, A2, A3, A4, A5, A6⟩ := ih1
      have ih2 := ih t (t.m_right n) (path ++ [1])
        (freq_tree_traverse fuel pEnc t (t.m_left n)
          (0 :: path.reverse) (path.length + 1) true).1 hcd (by omega) hnd2
      rw [hrev1, hlen11] at ih2
      obtain ⟨B1, B2, B3, B4, B5, B6⟩ := ih2
      rw [htr, hlp, pathsTotal_append]
      refine ⟨?_, ?_, ?_, ?_, ?_, ?_⟩
      · simp only
        rw [A1, B1]
      · simp only
        rw [B2, A2]
      · simp only
        rw [B3, A3]
      · simp only
        rw [B4, A4]
      · intro tok htok
        simp only
        rw [List.map_append, List.mem_append] at htok
        push_neg at htok
        rw [B5 tok htok.2, A5 tok htok.1]
      · intro pr hpr
        simp only
        rcases List.mem_append.mp hpr with hm | hm
        · have hfst : pr.1 ∈ (leafPaths t fuel (t.m_left n) (path ++ [0])).map Prod.fst :=
            List.mem_map.mpr ⟨pr, hm, rfl⟩
          rw [B5 pr.1 (hdisj hfst)]
          exact A6 pr hm
        · exact B6 pr hm

/-- Summary of `create_encodings` on a children-decreasing tree with
duplicate-free leaves, starting from a table whose packed bits are all
clear: the returned diagnostic is the total of all code lengths, each
leaf token records its depth as bit count and its assigned offset, other
tokens keep zeroes, and reading any leaf's range start-to-end gives its
root-to-leaf path. -/
theorem create_encodings_spec (t : FreqTree) (pEnc : EncodedTable)
    (hcd : ChildrenDec t)
    (hz : ∀ a, getPackedBit pEnc a = 0)
    (hnd : ((leafPaths t (t.m_top + 1) t.m_top []).map Prod.fst).Nodup) :
    (create_encodings pEnc t).2 = pathsTotal (leafPaths t (t.m_top + 1) t.m_top []) ∧
    (∀ pr ∈ leafPaths t (t.m_top + 1) t.m_top [],
      (create_encodings pEnc t).1.m_bitcount pr.1 = pr.2.length) ∧
    (∀ tok, tok ∉ (leafPaths t (t.m_top + 1) t.m_top []).map Prod.fst →
      (create_encodings pEnc t).1.m_bitcount tok = 0 ∧
      (create_encodings pEnc t).1.m_offset tok = 0) ∧
    (∀ tok o pa, (tok, o, pa) ∈ codeSpec 0 (leafPaths t (t.m_top + 1) t.m_top []) →
      (create_encodings pEnc t).1.m_offset tok = o ∧
      ∀ j, j < pa.length → read_encoded_bit (create_encodings pEnc t).1 (o + j) = pa.getD j 0) := by
  have h0' : ∀ a, (encoded_table_init pEnc).m_currentOffset ≤ a →
      getPackedBit (encoded_table_init pEnc) a = 0 := fun a _ => hz a
  have W := traverse_write_spec (t.m_top + 1) t t.m_top [] (encoded_table_init pEnc)
    hcd (Nat.lt_succ_self _) (by simp) h0' hnd
  rw [TravWriteOut] at W
  rw [List.reverse_nil, List.length_nil] at W
  obtain ⟨A1, A2, A3, A4, A5, A6, A7⟩ := W
  have C := traverse_count_spec (t.m_top + 1) t t.m_top []
    (freq_tree_traverse (t.m_top + 1) (encoded_table_init pEnc) t t.m_top [] 0 false).1
    hcd (Nat.lt_succ_self _) hnd
  rw [List.reverse_nil, List.length_nil] at C
  obtain ⟨C1, C2, C3, C4, C5, C6⟩ := C
  have hcur0 : (encoded_table_init pEnc).m_currentOffset = 0 := rfl
  have hres : create_encodings pEnc t =
      ((freq_tree_traverse (t.m_top + 1)
          (freq_tree_traverse (t.m_top + 1) (encoded_table_init pEnc) t t.m_top [] 0 false).1
          t t.m_top [] 0 true).1,
        (freq_tree_traverse (t.m_top + 1) (encoded_table_init pEnc) t t.m_top [] 0 false).2) := by
    simp only [create_encodings]
  rw [hres]
  refine ⟨A1, ?_, ?_, ?_⟩
  · intro pr hpr
    exact C6 pr hpr
  · intro tok htok
    constructor
    · rw [C5 tok htok]
      have : (freq_tree_traverse (t.m_top + 1) (encoded_table_init pEnc) t
          t.m_top [] 0 false).1.m_bitcount = (encoded_table_init pEnc).m_bitcount := A3
      rw [this]
      rfl
    · rw [C3]
      rw [A4 tok htok]
      rfl
  · intro tok o pa hmem
    rw [← hcur0] at hmem
    obtain ⟨hoff, hbits⟩ := A7 tok o pa hmem
    constructor
    · rw [C3]
      exact hoff
    · intro j hj
      have hpb : read_encoded_bit (freq_tree_traverse (t.m_top + 1)
          (freq_tree_traverse (t.m_top + 1) (encoded_table_init pEnc) t t.m_top [] 0 false).1
          t t.m_top [] 0 true).1 (o + j) =
          getPackedBit (freq_tree_traverse (t.m_top + 1) (encoded_table_init pEnc) t
            t.m_top [] 0 false).1 (o + j) := by
        rw [read_encoded_bit_eq]
        unfold getPackedBit
        rw [C2]
      rw [hpb]
      exact hbits j hj

/-! ### Codes of distinct leaves never extend one another -/

theorem leafPaths_path_pre (t : FreqTree) (fuel m : Nat) (p : List Nat) :
    ∀ pr ∈ leafPaths t fuel m p, ∃ q, pr.2 = p ++ q := by
  intro pr hpr
  rw [leafPaths_shift] at hpr
  obtain ⟨pr0, _, heq⟩ := List.mem_map.mp hpr
  exact ⟨pr0.2, by rw [← heq]⟩

theorem getD_take_lt (l : List Nat) (n k : Nat) (hk : k < n) :
    (l.take n).getD k 0 = l.getD k 0 := by
  rw [List.getD_eq_getElem?_getD, List.getD_eq_getElem?_getD, List.getElem?_take, if_pos hk]

/-- In any single traversal, the path of one leaf is never an initial
segment of the path of a different leaf. -/
theorem leafPaths_neq_take (t : FreqTree) (hc : ChildrenDec t) :
    ∀ (fuel n : Nat) (path : List Nat) (pr1 pr2 : Nat × List Nat),
      pr1 ∈ leafPaths t fuel n path → pr2 ∈ leafPaths t fuel n path →
      pr1.1 ≠ pr2.1 → pr1.2 ≠ pr2.2.take pr1.2.length := by
  intro fuel
  induction fuel with
  | zero =>
    intro n path pr1 pr2 h1 _ _
    exact absurd h1 (by simp [leafPaths])
  | succ fuel ih =>
    intro n path pr1 pr2 h1 h2 hne
    rw [leafPaths] at h1 h2
    by_cases hl : t.m_left n = INVALID_TOKEN
    · rw [if_pos hl, List.mem_singleton] at h1 h2
      rw [h1, h2] at hne
      exact absurd rfl hne
    · rw [if_neg hl] at h1 h2
      obtain ⟨hrv, hll, hrl⟩ := hc n hl
      rcases List.mem_append.mp h1 with m1 | m1 <;> rcases List.mem_append.mp h2 with m2 | m2
      · exact ih (t.m_left n) _ pr1 pr2 m1 m2 hne
      · -- pr1 under the left child, pr2 under the right child
        obtain ⟨s1, hs1⟩ := leafPaths_path_pre t fuel (t.m_left n) (path ++ [0]) pr1 m1
        obtain ⟨s2, hs2⟩ := leafPaths_path_pre t fuel (t.m_right n) (path ++ [1]) pr2 m2
        intro heq
        have hlen1 : path.length < pr1.2.length := by
          rw [hs1]
          simp
        have hL : pr1.2.getD path.length 0 = 0 := by
          rw [hs1, List.append_assoc, List.getD_append_right path _ 0 path.length (Nat.le_refl _)]
          simp
        have hR : pr1.2.getD path.length 0 = 1 := by
          rw [heq, getD_take_lt _ _ _ hlen1, hs2, List.append_assoc,
            List.getD_append_right path _ 0 path.length (Nat.le_refl _)]
          simp
        rw [hL] at hR
        exact absurd hR (by omega)
      · -- pr1 under the right child, pr2 under the left child
        obtain ⟨s1, hs1⟩ := leafPaths_path_pre t fuel (t.m_right n) (path ++ [1]) pr1 m1
        obtain ⟨s2, hs2⟩ := leafPaths_path_pre t fuel (t.m_left n) (path ++ [0]) pr2 m2
        intro heq
        have hlen1 : path.length < pr1.2.length := by
          rw [hs1]
          simp
        have hL : pr1.2.getD path.length 0 = 1 := by
          rw [hs1, List.append_assoc, List.getD_append_right path _ 0 path.length (Nat.le_refl _)]
          simp
        have hR : pr1.2.getD path.length 0 = 0 := by
          rw [heq, getD_take_lt _ _ _ hlen1, hs2, List.append_assoc,
            List.getD_append_right path _ 0 path.length (Nat.le_refl _)]
          simp
        rw [hL] at hR
        exact absurd hR (by omega)
      · exact ih (t.m_right n) _ pr1 pr2 m1 m2 hne

theorem pathsTotal_cons (pr : Nat × List Nat) (rest : List (Nat × List Nat)) :
    pathsTotal (pr :: rest) = pr.2.length + pathsTotal rest := by
  simp [pathsTotal]

/-- A sum over all tokens of a function that records each leaf's code
length and is zero elsewhere equals the total of the code lengths. -/
theorem sum_range_of_leaf_lengths (N : Nat) :
    ∀ (L : List (Nat × List Nat)) (g : Nat → Nat),
      (L.map Prod.fst).Nodup →
      (∀ x ∈ L.map Prod.fst, x < N) →
      (∀ pr ∈ L, g pr.1 = pr.2.length) →
      (∀ x, x < N → x ∉ L.map Prod.fst → g x = 0) →
      ∑ i ∈ Finset.range N, g i = pathsTotal L := by
  intro L
  induction L with
  | nil =>
    intro g _ _ _ hout
    have : ∑ i ∈ Finset.range N, g i = 0 :=
      Finset.sum_eq_zero (fun x hx => hout x (Finset.mem_range.mp hx) (by simp))
    rw [this]
    rfl
  | cons pr rest ih =>
    intro g hnd hlt hin hout
    rw [List.map_cons, List.nodup_cons] at hnd
    obtain ⟨hnotin, hndr⟩ := hnd
    have hprN : pr.1 < N := hlt pr.1 (by simp)
    have key := sum_upd g (Finset.range N) pr.1 (Finset.mem_range.mpr hprN) 0
    have hrest := ih (upd g pr.1 0) hndr
      (fun x hx => hlt x (by simp [hx]))
      (fun pr' hpr' => by
        have hne : pr'.1 ≠ pr.1 := by
          intro he
          exact hnotin (he ▸ List.mem_map.mpr ⟨pr', hpr', rfl⟩)
        rw [upd_other _ _ _ _ hne]
        exact hin pr' (List.mem_cons_of_mem pr hpr'))
      (fun x hx hxm => by
        by_cases hxe : x = pr.1
        · rw [hxe]; exact upd_same _ _ _
        · rw [upd_other _ _ _ _ hxe]
          exact hout x hx (by
            rw [List.map_cons, List.mem_cons]
            rintro (h | h)
            · exact hxe h
            · exact hxm h))
    have hg : g pr.1 = pr.2.length := hin pr (List.mem_cons_self pr rest)
    rw [pathsTotal_cons]
    omega

/-! ### Small helper facts for concrete instances -/

theorem natBit_zero (u : Nat) : natBit 0 u = 0 := by
  rw [natBit_eq, Nat.zero_testBit]
  rfl

theorem zeroTable_bits (a : Nat) : getPackedBit zeroTable a = 0 := natBit_zero _

theorem accumulate_left (data : List Nat) :
    ∀ t : FreqTree, (freq_tree_accumulate t data).m_left = t.m_left := by
  induction data with
  | nil => intro t; rfl
  | cons b rest ih =>
    intro t
    exact ih { t with m_count := upd t.m_count b (t.m_count b + 1) }

theorem accumulate_right (data : List Nat) :
    ∀ t : FreqTree, (freq_tree_accumulate t data).m_right = t.m_right := by
  induction data with
  | nil => intro t; rfl
  | cons b rest ih =>
    intro t
    exact ih { t with m_count := upd t.m_count b (t.m_count b + 1) }

theorem accumulate_count_other (data : List Nat) :
    ∀ (t : FreqTree) (j : Nat), (∀ b ∈ data, b ≠ j) →
      (freq_tree_accumulate t data).m_count j = t.m_count j := by
  induction data with
  | nil => intro t j _; rfl
  | cons b rest ih =>
    intro t j hb
    have hstep := ih { t with m_count := upd t.m_count b (t.m_count b + 1) } j
      (fun x hx => hb x (List.mem_cons_of_mem b hx))
    rw [show freq_tree_accumulate t (b :: rest) =
      freq_tree_accumulate { t with m_count := upd t.m_count b (t.m_count b + 1) } rest from rfl]
    rw [hstep]
    exact upd_other _ _ _ _ (fun he => hb b (List.mem_cons_self b rest) he.symm)

theorem smallTree_left (j : Nat) : smallTree.m_left j = INVALID_TOKEN := by
  rw [show smallTree.m_left = (freq_tree_accumulate freq_tree_init [0, 1, 1]).m_left from rfl,
    accumulate_left]
  rfl

theorem smallTree_right (j : Nat) : smallTree.m_right j = INVALID_TOKEN := by
  rw [show smallTree.m_right = (freq_tree_accumulate freq_tree_init [0, 1, 1]).m_right from rfl,
    accumulate_right]
  rfl

theorem smallTree_hi (j : Nat) (hj : TOKEN_SIZE ≤ j) : smallTree.m_count j = 0 := by
  have hTS : TOKEN_SIZE = 256 := rfl
  rw [show smallTree.m_count j = (freq_tree_accumulate freq_tree_init [0, 1, 1]).m_count j from rfl,
    accumulate_count_other [0, 1, 1] freq_tree_init j ?_]
  · rfl
  · intro b hb
    rw [List.mem_cons, List.mem_cons, List.mem_singleton] at hb
    omega

/-! ## The claims -/

/-- Claim C1 (code bug in the source): for the byte sequence
`[0, 1]` — nonempty, with two distinct symbol values — the full pipeline
decode(encode(bytes)) returns `[0]`, not `[0, 1]`: `stream_decode`
treats the emitted token value 0 as an end-of-stream sentinel and stops
immediately after emitting the first byte, so the claimed round trip
fails on any input whose `0` byte is not the unique final byte. -/
theorem c1_roundtrip_failure :
    pipeline [0, 1] 600 600 = some [0] ∧ pipeline [0, 1] 600 600 ≠ some [0, 1] := by
  constructor
  · decide
  · decide

/-- Claim C3: in every minimum scan, the chosen index has a minimal
nonzero count and, on ties, the lowest index wins (strict `<`,
first-found); concretely, with frequencies `{A = token 0: 2, B = token 1: 2,
C = token 2: 3}` the first merge combines A and B (node 256 gets left 0,
right 1), not C with either. -/
theorem c3_tie_break :
    (∀ (t : FreqTree) (n i : Nat), i < n → t.m_count i ≠ 0 →
      t.m_count i < INVALID_TOKEN →
      get_smallest_huffman t n < n ∧
      t.m_count (get_smallest_huffman t n) ≠ 0 ∧
      t.m_count (get_smallest_huffman t n) ≤ t.m_count i ∧
      (t.m_count i = t.m_count (get_smallest_huffman t n) →
        get_smallest_huffman t n ≤ i)) ∧
    (generate_huffman tieTree).m_left TOKEN_SIZE = 0 ∧
    (generate_huffman tieTree).m_right TOKEN_SIZE = 1 := by
  refine ⟨?_, by decide, by decide⟩
  intro t n i hi h0 hv
  obtain ⟨hlt, hne, _, hmin, htie⟩ := gsh_min t n i hi h0 hv
  exact ⟨hlt, hne, hmin i hi h0 hv, htie i hi⟩

theorem c3_witness :
    (2 < 256 ∧ tieTree.m_count 2 ≠ 0 ∧ tieTree.m_count 2 < INVALID_TOKEN) ∧
    (get_smallest_huffman tieTree 256 < 256 ∧
      tieTree.m_count (get_smallest_huffman tieTree 256) ≠ 0 ∧
      tieTree.m_count (get_smallest_huffman tieTree 256) ≤ tieTree.m_count 2 ∧
      (tieTree.m_count 2 = tieTree.m_count (get_smallest_huffman tieTree 256) →
        get_smallest_huffman tieTree 256 ≤ 2)) ∧
    (generate_huffman tieTree).m_left TOKEN_SIZE = 0 ∧
    (generate_huffman tieTree).m_right TOKEN_SIZE = 1 :=
  ⟨⟨by decide, by decide, by decide⟩,
   c3_tie_break.1 tieTree 256 2 (by decide) (by decide) (by decide),
   c3_tie_break.2.1, c3_tie_break.2.2⟩

/-- Claim C4: whenever `stream_decode` returns, the emitted token
sequence starts with the leaf reached by the bit-by-bit walk from
`m_top` (left on 0, right on 1), its last element is the token `0`, and
no earlier element is `0` — i.e. decoding terminates exactly upon
emitting token 0 and never emits past it. -/
theorem c4_decode_end_marker (t : FreqTree) (wf fuel : Nat) (s s' : Stream)
    (out : List Nat) (h : stream_decode t wf fuel s = some (s', out)) :
    (∃ s1 c, decode_walk t wf s t.m_top = some (s1, c) ∧ out.head? = some c) ∧
    out.getLast? = some 0 ∧ ∀ x ∈ out.dropLast, x ≠ 0 :=
  stream_decode_spec t wf fuel s s' out h

theorem c4_witness :
    (stream_decode (generate_huffman smallTree) 8 4 zeroStream).map
      (fun r => r.2.getLast?) = some (some 0) := by
  have hex : ∃ r, stream_decode (generate_huffman smallTree) 8 4 zeroStream = some r := by
    cases hc : stream_decode (generate_huffman smallTree) 8 4 zeroStream with
    | none =>
      have hs : (stream_decode (generate_huffman smallTree) 8 4 zeroStream).isSome = true := by
        decide
      rw [hc] at hs
      exact absurd hs (by simp)
    | some r => exact ⟨r, rfl⟩
  obtain ⟨⟨s', out⟩, hso⟩ := hex
  have hmain := c4_decode_end_marker (generate_huffman smallTree) 8 4 zeroStream s' out hso
  rw [hso]
  show some out.getLast? = some (some 0)
  rw [hmain.2.1]

/-- Claim C6: on the textbook frequencies a:5, b:9, c:12, d:13, e:16,
f:45 (at byte values 97..102), the derived code lengths are f:1, c:3,
d:3, a:4, b:4, e:3 and the weighted total (length x frequency summed
over all tokens) is 224. -/
theorem c6_textbook :
    (create_encodings zeroTable (generate_huffman textbookTree)).1.m_bitcount 102 = 1 ∧
    (create_encodings zeroTable (generate_huffman textbookTree)).1.m_bitcount 99 = 3 ∧
    (create_encodings zeroTable (generate_huffman textbookTree)).1.m_bitcount 100 = 3 ∧
    (create_encodings zeroTable (generate_huffman textbookTree)).1.m_bitcount 97 = 4 ∧
    (create_encodings zeroTable (generate_huffman textbookTree)).1.m_bitcount 98 = 4 ∧
    (create_encodings zeroTable (generate_huffman textbookTree)).1.m_bitcount 101 = 3 ∧
    weightedBits textbookTree (create_encodings zeroTable (generate_huffman textbookTree)).1 =
      224 := by
  refine ⟨by decide, by decide, by decide, by decide, by decide, by decide, by decide⟩

/-- Claim C8 (counterexample): on the table whose only used token is 5,
the build sets `m_top = 255`, not 5, although node 5 is the remaining
single node found by the first scan — the "unmerged root" of the claim. -/
theorem c8_counterexample :
    (generate_huffman singleTokenTree).m_top = 255 ∧
    (generate_huffman singleTokenTree).m_top ≠ 5 ∧
    singleTokenTree.m_count 5 ≠ 0 ∧
    singleTokenTree.m_count 4 = 0 ∧ singleTokenTree.m_count 6 = 0 := by
  refine ⟨by decide, by decide, by decide, by decide, by decide⟩

/-- Claim C8 (amended): when the second scan of an iteration finds no
node, the loop breaks and `m_top := new_index - 1` regardless of which
node survived: the last merge-created node when a merge occurred, and
always the fixed index `TOKEN_SIZE - 1 = 255` in the no-merge
(single-symbol) case — so the surviving node `a` becomes the root only
if its index happens to be `new_index - 1`. -/
theorem c8_top_assignment :
    (∀ t0 : FreqTree, (generate_huffman t0).m_top =
      (generate_loop (TOKEN_SIZE + 1) t0 TOKEN_SIZE).2 - 1) ∧
    (∀ (t0 : FreqTree) (tok : Nat), tok < TOKEN_SIZE → t0.m_count tok ≠ 0 →
      t0.m_count tok < INVALID_TOKEN → (∀ j, j ≠ tok → t0.m_count j = 0) →
      (generate_huffman t0).m_top = TOKEN_SIZE - 1) := by
  constructor
  · intro t0; rfl
  · intro t0 tok htok hc hcv hz
    have hmin := gsh_min t0 TOKEN_SIZE tok htok hc hcv
    have h1 : get_smallest_huffman t0 TOKEN_SIZE = tok := by
      by_contra hne
      exact hmin.2.1 (hz _ hne)
    have h1' : get_smallest_huffman t0 TOKEN_SIZE ≠ INVALID_TOKEN := by
      rw [h1]
      have hTS : TOKEN_SIZE = 256 := rfl
      have hIV : INVALID_TOKEN = 18446744073709551615 := rfl
      omega
    have h2 : get_smallest_huffman
        { t0 with m_count := upd t0.m_count (get_smallest_huffman t0 TOKEN_SIZE) 0 }
        TOKEN_SIZE = INVALID_TOKEN := by
      apply gsh_none
      intro i _
      left
      show upd t0.m_count (get_smallest_huffman t0 TOKEN_SIZE) 0 i = 0
      by_cases hie : i = get_smallest_huffman t0 TOKEN_SIZE
      · rw [hie]; exact upd_same _ _ _
      · rw [upd_other _ _ _ _ hie]
        apply hz
        rw [h1] at hie
        exact hie
    simp only [generate_huffman]
    rw [generate_loop_break2 TOKEN_SIZE t0 TOKEN_SIZE h1' h2]

theorem c8_witness :
    (5 < TOKEN_SIZE ∧ singleTokenTree.m_count 5 ≠ 0 ∧
      singleTokenTree.m_count 5 < INVALID_TOKEN) ∧
    (generate_huffman singleTokenTree).m_top = TOKEN_SIZE - 1 :=
  ⟨⟨by decide, by decide, by decide⟩,
   c8_top_assignment.2 singleTokenTree 5 (by decide) (by decide) (by decide)
     (fun j hj => by
       show (if j = 5 then 7 else 0) = 0
       rw [if_neg hj])⟩

/-- Claim C9 (counterexample): calling the build on the all-zero
frequency table surfaces no error at all; it silently returns the input
tree with `m_top` set to 255, a degenerate root with count 0 and no
children. -/
theorem c9_counterexample :
    generate_huffman freq_tree_init = { freq_tree_init with m_top := TOKEN_SIZE - 1 } ∧
    (generate_huffman freq_tree_init).m_count ((generate_huffman freq_tree_init).m_top) = 0 ∧
    (generate_huffman freq_tree_init).m_left ((generate_huffman freq_tree_init).m_top) =
      INVALID_TOKEN := by
  refine ⟨rfl, by decide, by decide⟩

/-- Claim C9 (amended): on any frequency table with no nonzero entries,
`generate_huffman` silently produces the degenerate tree — the input
unchanged except `m_top := TOKEN_SIZE - 1` — instead of surfacing an
`EmptyAlphabet` error (no error channel exists in the code). -/
theorem c9_silent_degenerate (t0 : FreqTree) (hz : ∀ j, t0.m_count j = 0) :
    generate_huffman t0 = { t0 with m_top := TOKEN_SIZE - 1 } := by
  have h1 : get_smallest_huffman t0 TOKEN_SIZE = INVALID_TOKEN :=
    gsh_none t0 _ (fun i _ => Or.inl (hz i))
  simp only [generate_huffman]
  rw [generate_loop_break1 TOKEN_SIZE t0 TOKEN_SIZE h1]

theorem c9_witness :
    generate_huffman freq_tree_init = { freq_tree_init with m_top := TOKEN_SIZE - 1 } :=
  c9_silent_degenerate freq_tree_init (fun _ => rfl)

/-- Claim C10: starting from a stream whose buffer bytes are all zero
and whose cursor is 0, writing any list of bits, resetting, and reading
back that many bits returns exactly the written bits; and because
`stream_write_bit` only ORs bits in, the guarantee indeed needs the
all-zero precondition: with bit 0 of the buffer already set, writing a 0
bit and reading it back yields 1. -/
theorem c10_stream_roundtrip (bits : List Nat) (s0 : Stream)
    (hb : ∀ b ∈ bits, b ≤ 1) (hbuf : ∀ i, s0.m_buffer i = 0) (hoff : s0.m_offset = 0) :
    (readBits bits.length (stream_reset (writeBits s0 bits))).2 = bits ∧
    (readBits 1 (stream_reset (writeBits dirtyStream [0]))).2 = [1] := by
  constructor
  · have hz : ∀ a, s0.m_offset ≤ a → streamBit s0 a = 0 := by
      intro a _
      unfold streamBit
      rw [hbuf]
      exact natBit_zero _
    obtain ⟨w_off, w_lo, w_mid, w_hi⟩ := writeBits_spec bits s0 hb hz
    obtain ⟨r_off, r_buf, r_out⟩ := readBits_spec bits.length (stream_reset (writeBits s0 bits))
    rw [r_out]
    have hsb : ∀ a, streamBit (stream_reset (writeBits s0 bits)) a =
        streamBit (writeBits s0 bits) a :=
      fun a => streamBit_of_buffer_eq (writeBits s0 bits) _ rfl a
    have hoff' : (stream_reset (writeBits s0 bits)).m_offset = 0 := rfl
    rw [hoff']
    have hmap : (List.range bits.length).map
        (fun i => streamBit (stream_reset (writeBits s0 bits)) (0 + i)) =
        (List.range bits.length).map (fun i => bits.getD i 0) := by
      apply List.map_congr_left
      intro i hi
      rw [List.mem_range] at hi
      rw [hsb]
      have hm := w_mid i hi
      rw [hoff] at hm
      exact hm
    rw [hmap, map_getD_range]
  · decide

theorem c10_witness :
    (readBits ([1, 0, 1] : List Nat).length (stream_reset (writeBits zeroStream [1, 0, 1]))).2 =
      [1, 0, 1] :=
  (c10_stream_roundtrip [1, 0, 1] zeroStream (by decide) (fun _ => rfl) rfl).1

/-- Facts shared by the table-level claims: a tree built from a fresh
frequency table has decreasing children, duplicate-free reachable
leaves, and all its leaves are token indices below `TOKEN_SIZE`. -/
theorem built_tree_facts (t0 : FreqTree)
    (hl : ∀ j, t0.m_left j = INVALID_TOKEN) (hr : ∀ j, t0.m_right j = INVALID_TOKEN)
    (hhi : ∀ j, TOKEN_SIZE ≤ j → t0.m_count j = 0) :
    ChildrenDec (generate_huffman t0) ∧
    ((leafPaths (generate_huffman t0) ((generate_huffman t0).m_top + 1)
        (generate_huffman t0).m_top []).map Prod.fst).Nodup ∧
    (∀ x ∈ (leafPaths (generate_huffman t0) ((generate_huffman t0).m_top + 1)
        (generate_huffman t0).m_top []).map Prod.fst, x < TOKEN_SIZE) := by
  obtain ⟨hI, htop, hge⟩ := generate_huffman_spec t0 hl hr hhi
  have hcd := chDec_of_inv hI
  have htlt : (generate_huffman t0).m_top <
      (generate_loop (TOKEN_SIZE + 1) t0 TOKEN_SIZE).2 := by
    rw [htop]
    have hTS : TOKEN_SIZE = 256 := rfl
    omega
  exact ⟨hcd, hI.nodup_all _ htlt, leaves_lt_of_inv _ _ _ hI _ htlt⟩

/-- Claim C2: after `create_encodings` on a built tree (and a table whose
packed bits start clear, as with fresh zeroed memory), every reachable
leaf's recorded bit count equals its depth, and reading the bits of its
range `[m_offset, m_offset + m_bitcount)` in increasing bit-address
order reproduces the root-to-leaf path (0 = left, 1 = right), even
though the writer emits them backward from the end of the range. -/
theorem c2_codes_are_paths (t0 : FreqTree) (pEnc : EncodedTable)
    (hl : ∀ j, t0.m_left j = INVALID_TOKEN) (hr : ∀ j, t0.m_right j = INVALID_TOKEN)
    (hhi : ∀ j, TOKEN_SIZE ≤ j → t0.m_count j = 0)
    (hz : ∀ a, getPackedBit pEnc a = 0) :
    ∀ pr ∈ leafPaths (generate_huffman t0) ((generate_huffman t0).m_top + 1)
        (generate_huffman t0).m_top [],
      (create_encodings pEnc (generate_huffman t0)).1.m_bitcount pr.1 = pr.2.length ∧
      ∀ j, j < pr.2.length →
        read_encoded_bit (create_encodings pEnc (generate_huffman t0)).1
          ((create_encodings pEnc (generate_huffman t0)).1.m_offset pr.1 + j) =
          pr.2.getD j 0 := by
  obtain ⟨hcd, hnd, _⟩ := built_tree_facts t0 hl hr hhi
  obtain ⟨S1, S2, S3, S4⟩ := create_encodings_spec (generate_huffman t0) pEnc hcd hz hnd
  intro pr hpr
  refine ⟨S2 pr hpr, ?_⟩
  obtain ⟨o, ho⟩ := codeSpec_mem_of_mem _ 0 pr.1 pr.2 hpr
  obtain ⟨hoff, hbits⟩ := S4 pr.1 o pr.2 ho
  intro j hj
  rw [hoff]
  exact hbits j hj

theorem c2_witness :
    (create_encodings zeroTable (generate_huffman smallTree)).1.m_bitcount 1 = 1 ∧
    read_encoded_bit (create_encodings zeroTable (generate_huffman smallTree)).1
      ((create_encodings zeroTable (generate_huffman smallTree)).1.m_offset 1 + 0) =
      ([1] : List Nat).getD 0 0 := by
  have h := c2_codes_are_paths smallTree zeroTable smallTree_left smallTree_right
    smallTree_hi zeroTable_bits (1, [1]) (by decide)
  exact ⟨h.1, h.2 0 (by decide)⟩

/-- Claim C5 (counterexample): for the frequencies token 0 -> 1,
token 1 -> 2 (data `[0, 1, 1]`), the diagnostic total returned by
`create_encodings` is 2 — the sum of the two code lengths — while the
sum over tokens of code length times frequency is 3, so the two
quantities differ. -/
theorem c5_counterexample :
    (create_encodings zeroTable (generate_huffman smallTree)).2 = 2 ∧
    weightedBits smallTree (create_encodings zeroTable (generate_huffman smallTree)).1 = 3 ∧
    (create_encodings zeroTable (generate_huffman smallTree)).2 ≠
      weightedBits smallTree (create_encodings zeroTable (generate_huffman smallTree)).1 := by
  refine ⟨by decide, by decide, by decide⟩

/-- Claim C5 (amended): the diagnostic total bit count that
`freq_tree_traverse` returns to `create_encodings` equals the sum over
all tokens of the code length alone (each reachable leaf's bit count,
counted once) — it is not weighted by the token frequencies. -/
theorem c5_total_unweighted (t0 : FreqTree) (pEnc : EncodedTable)
    (hl : ∀ j, t0.m_left j = INVALID_TOKEN) (hr : ∀ j, t0.m_right j = INVALID_TOKEN)
    (hhi : ∀ j, TOKEN_SIZE ≤ j → t0.m_count j = 0)
    (hz : ∀ a, getPackedBit pEnc a = 0) :
    (create_encodings pEnc (generate_huffman t0)).2 =
      sumBitcounts (create_encodings pEnc (generate_huffman t0)).1 := by
  obtain ⟨hcd, hnd, hlt⟩ := built_tree_facts t0 hl hr hhi
  obtain ⟨S1, S2, S3, S4⟩ := create_encodings_spec (generate_huffman t0) pEnc hcd hz hnd
  rw [S1]
  unfold sumBitcounts
  exact (sum_range_of_leaf_lengths TOKEN_SIZE _ _ hnd hlt S2
    (fun x _ hx => (S3 x hx).1)).symm

theorem c5_witness :
    (create_encodings zeroTable (generate_huffman smallTree)).2 =
      sumBitcounts (create_encodings zeroTable (generate_huffman smallTree)).1 :=
  c5_total_unweighted smallTree zeroTable smallTree_left smallTree_right
    smallTree_hi zeroTable_bits

/-- The derived code of every reachable leaf, as read back from the
table, is exactly its root-to-leaf path. -/
theorem codeBits_eq_path (t : FreqTree) (pEnc : EncodedTable)
    (hcd : ChildrenDec t) (hz : ∀ a, getPackedBit pEnc a = 0)
    (hnd : ((leafPaths t (t.m_top + 1) t.m_top []).map Prod.fst).Nodup) :
    ∀ pr ∈ leafPaths t (t.m_top + 1) t.m_top [],
      codeBits (create_encodings pEnc t).1 pr.1 = pr.2 := by
  obtain ⟨S1, S2, S3, S4⟩ := create_encodings_spec t pEnc hcd hz hnd
  intro pr hpr
  obtain ⟨o, ho⟩ := codeSpec_mem_of_mem _ 0 pr.1 pr.2 hpr
  obtain ⟨hoff, hbits⟩ := S4 pr.1 o pr.2 ho
  unfold codeBits
  rw [S2 pr hpr, hoff]
  have hcongr : (List.range pr.2.length).map
      (fun j => read_encoded_bit (create_encodings pEnc t).1 (o + j)) =
      (List.range pr.2.length).map (fun j => pr.2.getD j 0) := by
    apply List.map_congr_left
    intro j hj
    rw [List.mem_range] at hj
    exact hbits j hj
  rw [hcongr, map_getD_range]

/-- One direction of prefix-freedom for two distinct tokens with
nonzero code lengths in a built tree's derived table. -/
theorem code_no_extend (t0 : FreqTree) (pEnc : EncodedTable)
    (hl : ∀ j, t0.m_left j = INVALID_TOKEN) (hr : ∀ j, t0.m_right j = INVALID_TOKEN)
    (hhi : ∀ j, TOKEN_SIZE ≤ j → t0.m_count j = 0)
    (hz : ∀ a, getPackedBit pEnc a = 0)
    (tok1 tok2 : Nat) (hne : tok1 ≠ tok2)
    (hb1 : (create_encodings pEnc (generate_huffman t0)).1.m_bitcount tok1 ≠ 0)
    (hb2 : (create_encodings pEnc (generate_huffman t0)).1.m_bitcount tok2 ≠ 0) :
    codeBits (create_encodings pEnc (generate_huffman t0)).1 tok1 ≠
      (codeBits (create_encodings pEnc (generate_huffman t0)).1 tok2).take
        (codeBits (create_encodings pEnc (generate_huffman t0)).1 tok1).length := by
  obtain ⟨hcd, hnd, _⟩ := built_tree_facts t0 hl hr hhi
  have hspec := create_encodings_spec (generate_huffman t0) pEnc hcd hz hnd
  obtain ⟨S1, S2, S3, S4⟩ := hspec
  have hm1 : tok1 ∈ (leafPaths (generate_huffman t0) ((generate_huffman t0).m_top + 1)
      (generate_huffman t0).m_top []).map Prod.fst := by
    by_contra hx
    exact hb1 (S3 tok1 hx).1
  have hm2 : tok2 ∈ (leafPaths (generate_huffman t0) ((generate_huffman t0).m_top + 1)
      (generate_huffman t0).m_top []).map Prod.fst := by
    by_contra hx
    exact hb2 (S3 tok2 hx).1
  obtain ⟨pr1, hpr1, hfst1⟩ := List.mem_map.mp hm1
  obtain ⟨pr2, hpr2, hfst2⟩ := List.mem_map.mp hm2
  have hcb1 : codeBits (create_encodings pEnc (generate_huffman t0)).1 tok1 = pr1.2 := by
    rw [← hfst1]
    exact codeBits_eq_path (generate_huffman t0) pEnc hcd hz hnd pr1 hpr1
  have hcb2 : codeBits (create_encodings pEnc (generate_huffman t0)).1 tok2 = pr2.2 := by
    rw [← hfst2]
    exact codeBits_eq_path (generate_huffman t0) pEnc hcd hz hnd pr2 hpr2
  rw [hcb1, hcb2]
  exact leafPaths_neq_take (generate_huffman t0) hcd _ _ _ pr1 pr2 hpr1 hpr2
    (by rw [hfst1, hfst2]; exact hne)

/-- Claim C7: for every tree built from a frequency table with at least
two tokens of nonzero frequency, the derived code table is prefix-free:
for any two distinct tokens with nonzero code lengths, neither token's
code bit sequence (as read back from the packed table) is an initial
segment of the other's. -/
theorem c7_prefix_free (t0 : FreqTree) (pEnc : EncodedTable)
    (hl : ∀ j, t0.m_left j = INVALID_TOKEN) (hr : ∀ j, t0.m_right j = INVALID_TOKEN)
    (hhi : ∀ j, TOKEN_SIZE ≤ j → t0.m_count j = 0)
    (hz : ∀ a, getPackedBit pEnc a = 0)
    (a b : Nat) (hab : a ≠ b) (hca : t0.m_count a ≠ 0) (hcb : t0.m_count b ≠ 0)
    (tok1 tok2 : Nat) (hne : tok1 ≠ tok2)
    (hb1 : (create_encodings pEnc (generate_huffman t0)).1.m_bitcount tok1 ≠ 0)
    (hb2 : (create_encodings pEnc (generate_huffman t0)).1.m_bitcount tok2 ≠ 0) :
    codeBits (create_encodings pEnc (generate_huffman t0)).1 tok1 ≠
      (codeBits (create_encodings pEnc (generate_huffman t0)).1 tok2).take
        (codeBits (create_encodings pEnc (generate_huffman t0)).1 tok1).length ∧
    codeBits (create_encodings pEnc (generate_huffman t0)).1 tok2 ≠
      (codeBits (create_encodings pEnc (generate_huffman t0)).1 tok1).take
        (codeBits (create_encodings pEnc (generate_huffman t0)).1 tok2).length :=
  ⟨code_no_extend t0 pEnc hl hr hhi hz tok1 tok2 hne hb1 hb2,
   code_no_extend t0 pEnc hl hr hhi hz tok2 tok1 (Ne.symm hne) hb2 hb1⟩

theorem c7_witness :
    ((0 : Nat) ≠ 1 ∧ smallTree.m_count 0 ≠ 0 ∧ smallTree.m_count 1 ≠ 0 ∧
      (create_encodings zeroTable (generate_huffman smallTree)).1.m_bitcount 0 ≠ 0 ∧
      (create_encodings zeroTable (generate_huffman smallTree)).1.m_bitcount 1 ≠ 0) ∧
    codeBits (create_encodings zeroTable (generate_huffman smallTree)).1 0 ≠
      (codeBits (create_encodings zeroTable (generate_huffman smallTree)).1 1).take
        (codeBits (create_encodings zeroTable (generate_huffman smallTree)).1 0).length := by
  refine ⟨⟨by decide, by decide, by decide, by decide, by decide⟩, ?_⟩
  exact (c7_prefix_free smallTree zeroTable smallTree_left smallTree_right smallTree_hi
    zeroTable_bits 0 1 (by decide) (by decide) (by decide) 0 1 (by decide) (by decide)
    (by decide)).1

end Huffmania
